import Mathlib

/-!
Verification development for the typg font-discovery engine.

The Rust sources are shallowly embedded:
* strings are byte lists (`Str`), paths are abstract `Nat` identifiers with
  the lexicographic path order modelled by the order on `Nat`,
* OpenType tags are four raw bytes,
* the LMDB tables of the persistent index become association lists with
  explicit `get` / `put` / `delete` operations,
* Roaring bitmaps become sorted duplicate-free `List Nat` with sorted
  insertion and intersection,
* `rayon` thread pools only affect scheduling, never results, so the
  pipeline is embedded as the sequential function it computes,
* fallible Rust functions returning `Result` become `Except`.
-/

namespace Typg

/-- Rust `String` / `&str` contents, as the list of its bytes. -/
abbrev Str := List Nat

instance [DecidableEq ε] [DecidableEq α] : DecidableEq (Except ε α) := fun x y =>
  match x, y with
  | .ok a, .ok b =>
      if h : a = b then isTrue (by rw [h]) else isFalse (fun hc => h (Except.ok.inj hc))
  | .error a, .error b =>
      if h : a = b then isTrue (by rw [h]) else isFalse (fun hc => h (Except.error.inj hc))
  | .ok _, .error _ => isFalse (fun hc => Except.noConfusion hc)
  | .error _, .ok _ => isFalse (fun hc => Except.noConfusion hc)

/-! ### Stable sort used to model Rust `slice::sort_by` -/

/-- Insert `x` in front of the first element `y` with `le x y`. -/
def insertLe (le : α → α → Bool) (x : α) : List α → List α
  | [] => [x]
  | y :: ys => if le x y then x :: y :: ys else y :: insertLe le x ys

/-- Insertion sort; models Rust's stable `sort_by` (only the sorted result
is observable to the claims, not the sorting algorithm). -/
def sortByLe (le : α → α → Bool) (l : List α) : List α :=
  l.foldr (insertLe le) []

theorem insertLe_perm (le : α → α → Bool) (x : α) (l : List α) :
    List.Perm (insertLe le x l) (x :: l) := by
  induction l with
  | nil => simp [insertLe]
  | cons y ys ih =>
      by_cases h : le x y
      · simp [insertLe, h]
      · simp only [insertLe, if_neg h]
        exact (List.Perm.cons y ih).trans (List.Perm.swap x y ys)

theorem sortByLe_perm (le : α → α → Bool) (l : List α) :
    List.Perm (sortByLe le l) l := by
  induction l with
  | nil => simp [sortByLe]
  | cons y ys ih =>
      exact (insertLe_perm le y (sortByLe le ys)).trans (List.Perm.cons y ih)

theorem mem_sortByLe (le : α → α → Bool) (l : List α) (a : α) :
    a ∈ sortByLe le l ↔ a ∈ l :=
  (sortByLe_perm le l).mem_iff

theorem insertLe_sorted (le : α → α → Bool)
    (htrans : ∀ a b c, le a b = true → le b c = true → le a c = true)
    (htot : ∀ a b, le a b = true ∨ le b a = true) (x : α) (l : List α)
    (hl : l.Pairwise (fun a b => le a b = true)) :
    (insertLe le x l).Pairwise (fun a b => le a b = true) := by
  induction l with
  | nil => simp [insertLe]
  | cons y ys ih =>
      rcases List.pairwise_cons.mp hl with ⟨hy, hys⟩
      by_cases h : le x y
      · simp only [insertLe, if_pos h]
        refine List.pairwise_cons.mpr ⟨?_, hl⟩
        intro b hb
        rcases List.mem_cons.mp hb with hb | hb
        · subst hb; exact h
        · exact htrans x y b h (hy b hb)
      · simp only [insertLe, if_neg h]
        refine List.pairwise_cons.mpr ⟨?_, ih hys⟩
        intro b hb
        have hb' := (insertLe_perm le x ys).mem_iff.mp hb
        rcases List.mem_cons.mp hb' with hb' | hb'
        · rw [hb']
          exact (htot x y).resolve_left h
        · exact hy b hb'

theorem sortByLe_sorted (le : α → α → Bool)
    (htrans : ∀ a b c, le a b = true → le b c = true → le a c = true)
    (htot : ∀ a b, le a b = true ∨ le b a = true) (l : List α) :
    (sortByLe le l).Pairwise (fun a b => le a b = true) := by
  induction l with
  | nil => simp [sortByLe]
  | cons y ys ih => exact insertLe_sorted le htrans htot y (sortByLe le ys) ih

theorem sortByLe_nodup (le : α → α → Bool) (l : List α) (h : l.Nodup) :
    (sortByLe le l).Nodup :=
  ((sortByLe_perm le l).nodup_iff).mpr h

/-! ### Association-list model of the LMDB tables -/

/-- `Database::get`. -/
def dbGet (l : List (Nat × β)) (k : Nat) : Option β :=
  match l with
  | [] => none
  | (k', v) :: rest => if k' = k then some v else dbGet rest k

/-- `Database::put`: overwrite the value at an existing key, else append. -/
def dbPut (l : List (Nat × β)) (k : Nat) (v : β) : List (Nat × β) :=
  match l with
  | [] => [(k, v)]
  | (k', v') :: rest =>
      if k' = k then (k, v) :: rest else (k', v') :: dbPut rest k v

/-- `Database::delete`. -/
def dbDelete (l : List (Nat × β)) (k : Nat) : List (Nat × β) :=
  l.filter (fun kv => decide (kv.1 ≠ k))

theorem dbGet_dbPut (l : List (Nat × β)) (k k' : Nat) (v : β) :
    dbGet (dbPut l k v) k' = if k = k' then some v else dbGet l k' := by
  induction l with
  | nil => by_cases h : k = k' <;> simp [dbPut, dbGet, h]
  | cons kv rest ih =>
      obtain ⟨k0, v0⟩ := kv
      by_cases h0 : k0 = k
      · subst h0
        by_cases h1 : k0 = k' <;> simp [dbPut, dbGet, h1]
      · simp only [dbPut, if_neg h0]
        by_cases h1 : k0 = k'
        · subst h1
          have h2 : ¬ k = k0 := fun h => h0 h.symm
          simp [dbGet, h2]
        · simp [dbGet, h1, ih]

/-! ### Roaring bitmaps as sorted duplicate-free lists -/

/-- `RoaringBitmap::insert`, keeping the sorted order of a roaring bitmap. -/
def bitmapInsert (x : Nat) : List Nat → List Nat
  | [] => [x]
  | y :: ys =>
      if x < y then x :: y :: ys
      else if x = y then y :: ys
      else y :: bitmapInsert x ys

theorem mem_bitmapInsert (x a : Nat) (bm : List Nat) :
    a ∈ bitmapInsert x bm ↔ a = x ∨ a ∈ bm := by
  induction bm with
  | nil => simp [bitmapInsert]
  | cons y ys ih =>
      by_cases h1 : x < y
      · simp [bitmapInsert, h1]
      · by_cases h2 : x = y
        · subst h2
          have hstep : bitmapInsert x (x :: ys) = x :: ys := by
            simp [bitmapInsert, h1]
          rw [hstep, List.mem_cons]
          tauto
        · simp only [bitmapInsert, if_neg h1, if_neg h2, List.mem_cons, ih]
          tauto

/-- `RoaringBitmap` intersection `&=`. -/
def bitmapIntersect (a b : List Nat) : List Nat :=
  a.filter (fun x => b.contains x)

theorem mem_bitmapIntersect (a b : List Nat) (x : Nat) :
    x ∈ bitmapIntersect a b ↔ x ∈ a ∧ x ∈ b := by
  simp [bitmapIntersect, List.mem_filter, List.contains, List.elem_iff]

/-! ### Tags (`read_fonts::types::Tag`, src/typg-core/src/tags.rs) -/

/-- A 4-byte OpenType tag. -/
structure Tag where
  b0 : Nat
  b1 : Nat
  b2 : Nat
  b3 : Nat
deriving DecidableEq, Repr

/-- The bytes of a tag are printable ASCII (0x20 to 0x7E); `tag4` only ever
constructs such tags. -/
def validTag (t : Tag) : Prop :=
  (0x20 ≤ t.b0 ∧ t.b0 ≤ 0x7E) ∧ (0x20 ≤ t.b1 ∧ t.b1 ≤ 0x7E) ∧
  (0x20 ≤ t.b2 ∧ t.b2 ≤ 0x7E) ∧ (0x20 ≤ t.b3 ∧ t.b3 ≤ 0x7E)

instance (t : Tag) : Decidable (validTag t) := by
  unfold validTag
  infer_instance

/-- `tag4`: parse a 1-4 byte string, right-padding with spaces (0x20). -/
def tag4 (raw : Str) : Except String Tag :=
  if raw.isEmpty || decide (raw.length > 4) then
    .error "tag must be 1-4 printable ASCII chars"
  else if raw.all (fun b => decide (0x20 ≤ b) && decide (b ≤ 0x7E)) then
    .ok ⟨raw.getD 0 0x20, raw.getD 1 0x20, raw.getD 2 0x20, raw.getD 3 0x20⟩
  else
    .error "tag byte out of range"

/-- One byte is a UTF-8 continuation byte. -/
def isCont (b : Nat) : Bool :=
  decide (0x80 ≤ b) && decide (b ≤ 0xBF)

/-- Admissible first continuation byte after a 3-byte leading byte
(rules out overlong encodings and surrogates). -/
def cont3Ok (b c : Nat) : Bool :=
  if b = 0xE0 then decide (0xA0 ≤ c) && decide (c ≤ 0xBF)
  else if b = 0xED then decide (0x80 ≤ c) && decide (c ≤ 0x9F)
  else isCont c

/-- Admissible first continuation byte after a 4-byte leading byte. -/
def cont4Ok (b c : Nat) : Bool :=
  if b = 0xF0 then decide (0x90 ≤ c) && decide (c ≤ 0xBF)
  else if b = 0xF4 then decide (0x80 ≤ c) && decide (c ≤ 0x8F)
  else isCont c

/-- Worker for `utf8Lossy`; `fuel` is an upper bound on the input length so
that the recursion is structural and computes inside the kernel. -/
def utf8LossyGo : Nat → List Nat → List Nat
  | 0, _ => []
  | fuel + 1, l =>
    match l with
    | [] => []
    | b :: rest =>
      if b ≤ 0x7F then b :: utf8LossyGo fuel rest
      else if 0xC2 ≤ b ∧ b ≤ 0xDF then
        match rest with
        | c1 :: r =>
            if isCont c1 then b :: c1 :: utf8LossyGo fuel r
            else 0xEF :: 0xBF :: 0xBD :: utf8LossyGo fuel (c1 :: r)
        | [] => [0xEF, 0xBF, 0xBD]
      else if 0xE0 ≤ b ∧ b ≤ 0xEF then
        match rest with
        | c1 :: c2 :: r =>
            if cont3Ok b c1 && isCont c2 then b :: c1 :: c2 :: utf8LossyGo fuel r
            else if cont3Ok b c1 then
              0xEF :: 0xBF :: 0xBD :: utf8LossyGo fuel (c2 :: r)
            else 0xEF :: 0xBF :: 0xBD :: utf8LossyGo fuel (c1 :: c2 :: r)
        | [c1] =>
            if cont3Ok b c1 then [0xEF, 0xBF, 0xBD]
            else 0xEF :: 0xBF :: 0xBD :: utf8LossyGo fuel [c1]
        | [] => [0xEF, 0xBF, 0xBD]
      else if 0xF0 ≤ b ∧ b ≤ 0xF4 then
        match rest with
        | c1 :: c2 :: c3 :: r =>
            if cont4Ok b c1 && isCont c2 && isCont c3 then
              b :: c1 :: c2 :: c3 :: utf8LossyGo fuel r
            else if cont4Ok b c1 && isCont c2 then
              0xEF :: 0xBF :: 0xBD :: utf8LossyGo fuel (c3 :: r)
            else if cont4Ok b c1 then
              0xEF :: 0xBF :: 0xBD :: utf8LossyGo fuel (c2 :: c3 :: r)
            else 0xEF :: 0xBF :: 0xBD :: utf8LossyGo fuel (c1 :: c2 :: c3 :: r)
        | [c1, c2] =>
            if cont4Ok b c1 && isCont c2 then [0xEF, 0xBF, 0xBD]
            else if cont4Ok b c1 then 0xEF :: 0xBF :: 0xBD :: utf8LossyGo fuel [c2]
            else 0xEF :: 0xBF :: 0xBD :: utf8LossyGo fuel [c1, c2]
        | [c1] =>
            if cont4Ok b c1 then [0xEF, 0xBF, 0xBD]
            else 0xEF :: 0xBF :: 0xBD :: utf8LossyGo fuel [c1]
        | [] => [0xEF, 0xBF, 0xBD]
      else 0xEF :: 0xBF :: 0xBD :: utf8LossyGo fuel rest

/-- `String::from_utf8_lossy` followed by re-encoding (`.to_string()`):
well-formed UTF-8 sequences are kept, ill-formed subparts are replaced by
the replacement character U+FFFD (bytes EF BF BD). -/
def utf8Lossy (l : List Nat) : List Nat :=
  utf8LossyGo l.length l

/-- `tag_to_string`: render the 4 tag bytes with `String::from_utf8_lossy`. -/
def tag_to_string (t : Tag) : Str :=
  utf8Lossy [t.b0, t.b1, t.b2, t.b3]

/-! ### Face metadata (`TypgFontFaceMeta`, src/typg-core/src/search.rs) -/

/-- The normalized per-face metadata record produced by the extractor. -/
structure TypgFontFaceMeta where
  names : List Str := []
  axis_tags : List Tag := []
  feature_tags : List Tag := []
  script_tags : List Tag := []
  table_tags : List Tag := []
  codepoints : List Nat := []
  is_variable : Bool := false
  weight_class : Option Nat := none
  width_class : Option Nat := none
  family_class : Option (Nat × Nat) := none
deriving DecidableEq, Repr

/-! ### Query model (src/typg-core/src/query.rs) -/

/-- OS/2 family-class filter: major class plus optional subclass. -/
structure FamilyClassFilter where
  major : Nat
  subclass : Option Nat
deriving DecidableEq, Repr

/-- A compiled regex is modelled by its `is_match` predicate on strings. -/
abbrev NamePattern := Str → Bool

/-- `Query`: conjunction of independent filters. -/
structure Query where
  axes : List Tag := []
  features : List Tag := []
  scripts : List Tag := []
  tables : List Tag := []
  name_patterns : List NamePattern := []
  codepoints : List Nat := []
  variable_only : Bool := false
  weight_range : Option (Nat × Nat) := none
  width_range : Option (Nat × Nat) := none
  family_class : Option FamilyClassFilter := none

/-- `RangeInclusive::contains`. -/
def rangeContains (r : Nat × Nat) (x : Nat) : Bool :=
  decide (r.1 ≤ x) && decide (x ≤ r.2)

/-- `contains_all_tags`: every needle occurs in the haystack
(vacuously true for no needles). -/
def containsAllTags (haystack needles : List Tag) : Bool :=
  if needles.isEmpty then true
  else needles.all (fun t => haystack.any (fun x => x = t))

/-- The weight / width blocks of `Query::matches`: a present range requires a
present class inside the range. -/
def rangeClause (range : Option (Nat × Nat)) (cls : Option Nat) : Bool :=
  match range with
  | none => true
  | some r =>
      match cls with
      | some v => rangeContains r v
      | none => false

/-- The family-class block of `Query::matches`. -/
def familyClause (filter : Option FamilyClassFilter) (fc : Option (Nat × Nat)) :
    Bool :=
  match filter with
  | none => true
  | some f =>
      match fc with
      | some (cls, sub) =>
          if cls ≠ f.major then false
          else
            match f.subclass with
            | some expected => sub = expected
            | none => true
      | none => false

/-- The codepoint block of `Query::matches`: the face must cover every
requested codepoint (vacuous for an empty request). -/
def codepointClause (qcps mcps : List Nat) : Bool :=
  if qcps.isEmpty then true
  else qcps.all (fun cp => mcps.any (fun c => c = cp))

/-- The name-pattern block of `Query::matches`: some face name must match
some pattern (vacuous for no patterns). -/
def nameClause (pats : List NamePattern) (names : List Str) : Bool :=
  if pats.isEmpty then true
  else names.any (fun name => pats.any (fun re => re name))

/-- `Query::matches`: the conjunction of all clauses, in source order. -/
def Query.matches (q : Query) (m : TypgFontFaceMeta) : Bool :=
  !(q.variable_only && !m.is_variable)
  && containsAllTags m.axis_tags q.axes
  && containsAllTags m.feature_tags q.features
  && containsAllTags m.script_tags q.scripts
  && containsAllTags m.table_tags q.tables
  && rangeClause q.weight_range m.weight_class
  && rangeClause q.width_range m.width_class
  && familyClause q.family_class m.family_class
  && codepointClause q.codepoints m.codepoints
  && nameClause q.name_patterns m.names

/-! ### Family-class parsing (`parse_family_class`) -/

/-- ASCII whitespace bytes recognized by `str::trim` on ASCII input. -/
def isWsByte (b : Nat) : Bool :=
  b = 0x20 || b = 0x09 || b = 0x0A || b = 0x0B || b = 0x0C || b = 0x0D

/-- `str::trim` restricted to ASCII input. -/
def trimBytes (s : Str) : Str :=
  ((s.dropWhile isWsByte).reverse.dropWhile isWsByte).reverse

/-- `str::to_ascii_lowercase`. -/
def toAsciiLower (s : Str) : Str :=
  s.map (fun b => if 0x41 ≤ b ∧ b ≤ 0x5A then b + 0x20 else b)

/-- `lookup_family_class_by_name`: the fixed friendly-name alias table. -/
def lookupFamilyClassByName (name : Str) : Option Nat :=
  if name = [0x6E, 0x6F, 0x6E, 0x65] then some 0 else  -- "none"
  if name = [0x6E, 0x6F, 0x2D, 0x63, 0x6C, 0x61, 0x73, 0x73] then some 0 else  -- "no-class"
  if name = [0x75, 0x6E, 0x63, 0x61, 0x74, 0x65, 0x67, 0x6F, 0x72, 0x69, 0x7A, 0x65, 0x64] then some 0 else  -- "uncategorized"
  if name = [0x6F, 0x6C, 0x64, 0x73, 0x74, 0x79, 0x6C, 0x65] then some 1 else  -- "oldstyle"
  if name = [0x6F, 0x6C, 0x64, 0x2D, 0x73, 0x74, 0x79, 0x6C, 0x65] then some 1 else  -- "old-style"
  if name = [0x6F, 0x6C, 0x64, 0x73, 0x74, 0x79, 0x6C, 0x65, 0x2D, 0x73, 0x65, 0x72, 0x69, 0x66] then some 1 else  -- "oldstyle-serif"
  if name = [0x74, 0x72, 0x61, 0x6E, 0x73, 0x69, 0x74, 0x69, 0x6F, 0x6E, 0x61, 0x6C] then some 2 else  -- "transitional"
  if name = [0x6D, 0x6F, 0x64, 0x65, 0x72, 0x6E] then some 3 else  -- "modern"
  if name = [0x63, 0x6C, 0x61, 0x72, 0x65, 0x6E, 0x64, 0x6F, 0x6E] then some 4 else  -- "clarendon"
  if name = [0x73, 0x6C, 0x61, 0x62] then some 5 else  -- "slab"
  if name = [0x73, 0x6C, 0x61, 0x62, 0x2D, 0x73, 0x65, 0x72, 0x69, 0x66] then some 5 else  -- "slab-serif"
  if name = [0x65, 0x67, 0x79, 0x70, 0x74, 0x69, 0x61, 0x6E] then some 5 else  -- "egyptian"
  if name = [0x66, 0x72, 0x65, 0x65, 0x66, 0x6F, 0x72, 0x6D] then some 7 else  -- "freeform"
  if name = [0x66, 0x72, 0x65, 0x65, 0x66, 0x6F, 0x72, 0x6D, 0x2D, 0x73, 0x65, 0x72, 0x69, 0x66] then some 7 else  -- "freeform-serif"
  if name = [0x73, 0x61, 0x6E, 0x73] then some 8 else  -- "sans"
  if name = [0x73, 0x61, 0x6E, 0x73, 0x2D, 0x73, 0x65, 0x72, 0x69, 0x66] then some 8 else  -- "sans-serif"
  if name = [0x67, 0x6F, 0x74, 0x68, 0x69, 0x63] then some 8 else  -- "gothic"
  if name = [0x6F, 0x72, 0x6E, 0x61, 0x6D, 0x65, 0x6E, 0x74, 0x61, 0x6C] then some 9 else  -- "ornamental"
  if name = [0x64, 0x65, 0x63, 0x6F, 0x72, 0x61, 0x74, 0x69, 0x76, 0x65] then some 9 else  -- "decorative"
  if name = [0x73, 0x63, 0x72, 0x69, 0x70, 0x74] then some 10 else  -- "script"
  if name = [0x73, 0x79, 0x6D, 0x62, 0x6F, 0x6C, 0x69, 0x63] then some 12 else  -- "symbolic"
  none

/-- One decimal digit value. -/
def decDigit (b : Nat) : Option Nat :=
  if 0x30 ≤ b ∧ b ≤ 0x39 then some (b - 0x30) else none

/-- One hexadecimal digit value (both letter cases, as in `from_str_radix`). -/
def hexDigit (b : Nat) : Option Nat :=
  if 0x30 ≤ b ∧ b ≤ 0x39 then some (b - 0x30)
  else if 0x61 ≤ b ∧ b ≤ 0x66 then some (b - 0x57)
  else if 0x41 ≤ b ∧ b ≤ 0x46 then some (b - 0x37)
  else none

/-- Accumulate digit values left to right. -/
def digitsVal (digit : Nat → Option Nat) (base : Nat) (acc : Nat) :
    Str → Option Nat
  | [] => some acc
  | b :: r =>
      match digit b with
      | some d => digitsVal digit base (acc * base + d) r
      | none => none

/-- Rust unsigned-integer parsing (`FromStr` / `from_str_radix`): an optional
leading plus sign, at least one digit, overflow rejected against `max`. -/
def parseUnsigned (digit : Nat → Option Nat) (base max : Nat) (s : Str) :
    Option Nat :=
  let body := if s.head? = some 0x2B then s.tail else s
  if body.isEmpty then none
  else
    match digitsVal digit base 0 body with
    | some v => if v ≤ max then some v else none
    | none => none

/-- `str::parse::<u8>()`. -/
def parseU8 (s : Str) : Option Nat := parseUnsigned decDigit 10 0xFF s

/-- `str::parse::<u16>()`. -/
def parseU16 (s : Str) : Option Nat := parseUnsigned decDigit 10 0xFFFF s

/-- `u16::from_str_radix(s, 16)`. -/
def parseU16Hex (s : Str) : Option Nat := parseUnsigned hexDigit 16 0xFFFF s

/-- `str::split_once`: split at the first occurrence of `sep`. -/
def splitOnce (sep : Nat) : Str → Option (Str × Str)
  | [] => none
  | b :: r =>
      if b = sep then some ([], r)
      else
        match splitOnce sep r with
        | some (x, y) => some (b :: x, y)
        | none => none

/-- `parse_major_and_subclass`: dotted `M.S` or colon `M:S` forms. -/
def parseMajorAndSubclass (raw : Str) : Option (Nat × Nat) :=
  match splitOnce 0x2E raw with  -- '.'
  | some (major, sub) =>
      match parseU8 major, parseU8 sub with
      | some m, some s => some (m, s)
      | _, _ => none
  | none =>
      match splitOnce 0x3A raw with  -- ':'
      | some (major, sub) =>
          match parseU8 major, parseU8 sub with
          | some m, some s => some (m, s)
          | _, _ => none
      | none => none

/-- `strip_prefix("0x")`. -/
def stripHexMark (s : Str) : Option Str :=
  match s with
  | a :: b :: r => if a = 0x30 ∧ b = 0x78 then some r else none
  | _ => none

/-- The final numeric step of `parse_family_class`: values up to 0x00FF are a
bare major class, larger values split into high byte / low byte. -/
def familyClassFromValue (value : Nat) : FamilyClassFilter :=
  if value ≤ 0x00FF then ⟨value, none⟩
  else ⟨value / 256, some (value % 256)⟩

/-- `parse_family_class`: friendly name, `M.S` / `M:S`, hex `0x...`, or
decimal. -/
def parseFamilyClass (input : Str) : Except String FamilyClassFilter :=
  let trimmed := trimBytes input
  if trimmed.isEmpty then .error "family class cannot be empty"
  else
    let lower := toAsciiLower trimmed
    match lookupFamilyClassByName lower with
    | some major => .ok ⟨major, none⟩
    | none =>
        match parseMajorAndSubclass lower with
        | some (major, subclass) => .ok ⟨major, some subclass⟩
        | none =>
            match stripHexMark lower with
            | some stripped =>
                match parseU16Hex stripped with
                | some value => .ok (familyClassFromValue value)
                | none => .error "invalid hex family class"
            | none =>
                match parseU16 lower with
                | some value => .ok (familyClassFromValue value)
                | none => .error "invalid family class"

/-! ### Live search pipeline (src/typg-core/src/search.rs, discovery.rs) -/

/-- `TypgFontSource`: path plus optional collection index. `PathBuf`s are
abstract path identifiers whose `Nat` order models the path order used by
`sort_by`. -/
structure TypgFontSource where
  path : Nat
  ttc_index : Option Nat
deriving DecidableEq, Repr

/-- `TypgFontFaceMatch`: source plus metadata, the unit returned to callers. -/
structure TypgFontFaceMatch where
  source : TypgFontSource
  metadata : TypgFontFaceMeta
deriving DecidableEq, Repr

/-- `SearchOptions`. -/
structure SearchOptions where
  follow_symlinks : Bool := false
  jobs : Option Nat := none

/-- Error kinds surfaced by the embedded pipeline. -/
inductive CoreError
  | rootMissing (root : Nat)
  | parseError (path : Nat)
  | invalidArgument (msg : String)
deriving DecidableEq, Repr

/-- The environment of the pipeline: what the filesystem walker yields under
each root (`none` = the root does not exist) and what faces the extractor
parses out of each candidate file (`none` = parse error). Parallel extraction
is order-independent per file, so the extractor is a function of the path. -/
structure World where
  rootFiles : Nat → Option (List Nat)
  faces : Nat → Option (List (Option Nat × TypgFontFaceMeta))

/-- `PathDiscovery::discover`: walk each root in order, failing on the first
missing root, concatenating files in traversal order (no deduplication). -/
def discover (w : World) (roots : List Nat) : Except CoreError (List Nat) :=
  match roots with
  | [] => .ok []
  | r :: rest =>
      match w.rootFiles r with
      | none => .error (.rootMissing r)
      | some files =>
          match discover w rest with
          | .ok more => .ok (files ++ more)
          | .error e => .error e

/-- `load_metadata`: parse one file into its face matches. -/
def load_metadata (w : World) (p : Nat) : Except CoreError (List TypgFontFaceMatch) :=
  match w.faces p with
  | none => .error (.parseError p)
  | some fs => .ok (fs.map (fun f => ⟨⟨p, f.1⟩, f.2⟩))

/-- `collect::<Result<Vec<_>>>` over per-file extraction results. -/
def mapExcept (f : α → Except ε β) : List α → Except ε (List β)
  | [] => .ok []
  | a :: r =>
      match f a with
      | .error e => .error e
      | .ok b =>
          match mapExcept f r with
          | .error e => .error e
          | .ok bs => .ok (b :: bs)

/-- `Option<u32>` comparison used inside the sort key (Rust `Ord` on
`Option`: `None` sorts before `Some`). -/
def optNatLe : Option Nat → Option Nat → Bool
  | none, _ => true
  | some _, none => false
  | some x, some y => decide (x ≤ y)

/-- The `(path, ttc_index)` comparator of `sort_matches` (and of the
identical sorts in `IndexReader::find` / `list_all`). -/
def matchLe (a b : TypgFontFaceMatch) : Bool :=
  decide (a.source.path < b.source.path) ||
  (decide (a.source.path = b.source.path) &&
    optNatLe a.source.ttc_index b.source.ttc_index)

/-- `sort_matches`: stable sort by `(path, ttc_index)`. -/
def sort_matches (l : List TypgFontFaceMatch) : List TypgFontFaceMatch :=
  sortByLe matchLe l

/-- `search`: walk, extract, filter by the matcher, sort. The rayon pool
built from `opts.jobs` (`num_threads(0)` means the default choice) only
schedules the per-file work; it does not change the computed result, so the
embedding is the sequential function. -/
def search (w : World) (paths : List Nat) (q : Query) (opts : SearchOptions) :
    Except CoreError (List TypgFontFaceMatch) :=
  match discover w paths with
  | .error e => .error e
  | .ok candidates =>
      match mapExcept (load_metadata w) candidates with
      | .error e => .error e
      | .ok metadata =>
          .ok (sort_matches
            (metadata.flatten.filter (fun face => q.matches face.metadata)))

/-- `filter_cached`: filter already-extracted entries and sort. -/
def filter_cached (entries : List TypgFontFaceMatch) (q : Query) :
    List TypgFontFaceMatch :=
  sort_matches (entries.filter (fun e => q.matches e.metadata))

/-- `run_find` (src/typg-cli/src/lib.rs): the CLI rejects `--jobs 0` before
invoking the core search (path gathering and output formatting elided). -/
def run_find (w : World) (paths : List Nat) (q : Query) (opts : SearchOptions) :
    Except CoreError (List TypgFontFaceMatch) :=
  if opts.jobs = some 0 then .error (.invalidArgument "--jobs must be at least 1")
  else search w paths q opts

/-! ### Persistent index (src/core/typg-core/src/index.rs) -/

/-- The serialized per-face record stored in the `metadata` table. The
serialized roaring codepoint bitmap is modelled by its member list; the
empty byte string (`Vec::new`) is the empty list. -/
structure IndexedFontMeta where
  path : Nat
  ttc_index : Option Nat
  names : List Str
  is_variable : Bool
  weight_class : Option Nat
  width_class : Option Nat
  family_class : Option (Nat × Nat)
  cmap_bitmap : List Nat
deriving DecidableEq, Repr

/-- `PathEntry`: `(font_id, mtime_secs)`. -/
structure PathEntry where
  font_id : Nat
  mtime_secs : Nat
deriving DecidableEq, Repr

/-- The three LMDB tables plus the ID allocator. The single-writer
transaction discipline makes writer operations sequential, so the
environment/transaction plumbing is elided and writer methods act directly
on the state; `commit` makes this state the one visible to later readers. -/
structure IndexState where
  db_metadata : List (Nat × IndexedFontMeta)
  db_inverted : List (Nat × List Nat)
  db_path_to_id : List (Nat × PathEntry)
  next_id : Nat
deriving DecidableEq, Repr

/-- `FontIndex::open` on a fresh directory: empty tables, `next_id = 1`. -/
def emptyIndex : IndexState := ⟨[], [], [], 1⟩

/-- `hash_path` (`xxh3_64` of the path string), idealized as a
collision-free hash: the abstract path identifier itself. -/
def hash_path (p : Nat) : Nat := p

/-- `tag_to_u32`: `u32::from_be_bytes` of the tag bytes. -/
def tag_to_u32 (t : Tag) : Nat :=
  ((t.b0 * 256 + t.b1) * 256 + t.b2) * 256 + t.b3

/-- `tag_marker(b"_VAR")`: the pseudo-tag for the variable-font marker. -/
def tagMarkerVAR : Nat :=
  ((0x5F * 256 + 0x56) * 256 + 0x41) * 256 + 0x52

/-- `2^32`: the value space of a `u32`, the element type of roaring bitmaps. -/
def U32LIMIT : Nat := 4294967296

/-- `build_cmap_bitmap`: empty codepoints give the empty byte string,
otherwise the serialized roaring bitmap of the codepoints. -/
def build_cmap_bitmap (cps : List Nat) : List Nat :=
  if cps.isEmpty then []
  else cps.foldl (fun bm cp => bitmapInsert cp bm) []

/-- `IndexWriter::needs_update`: true iff no path entry exists or the stored
`mtime_secs` differs. `mtime` is already in whole seconds since the Unix
epoch (the `duration_since` conversion). -/
def needs_update (s : IndexState) (path : Nat) (mtime : Nat) : Bool :=
  match dbGet s.db_path_to_id (hash_path path) with
  | some entry => entry.mtime_secs ≠ mtime
  | none => true

/-- `IndexWriter::remove_font_by_id`: deletes only the metadata row. -/
def remove_font_by_id (s : IndexState) (font_id : Nat) : IndexState :=
  { s with db_metadata := dbDelete s.db_metadata font_id }

/-- `IndexWriter::add_to_inverted_index`: load the bitmap for the tag,
insert `font_id as u32` (truncation to the low 32 bits), store it back. -/
def add_to_inverted_index (s : IndexState) (tagU font_id : Nat) : IndexState :=
  let bitmap := (dbGet s.db_inverted tagU).getD []
  let bitmap := bitmapInsert (font_id % U32LIMIT) bitmap
  { s with db_inverted := dbPut s.db_inverted tagU bitmap }

/-- The argument record of `IndexWriter::add_font`. -/
structure AddArgs where
  path : Nat
  ttc_index : Option Nat := none
  mtime : Nat := 0
  names : List Str := []
  axis_tags : List Tag := []
  feature_tags : List Tag := []
  script_tags : List Tag := []
  table_tags : List Tag := []
  codepoints : List Nat := []
  is_variable : Bool := false
  weight_class : Option Nat := none
  width_class : Option Nat := none
  family_class : Option (Nat × Nat) := none
deriving DecidableEq, Repr

/-- The state/ID effect of `IndexWriter::add_font`: delete the previous
metadata row for the same path hash (bitmaps are left untouched), allocate a
fresh ID, write metadata and path entry, and insert the ID into the inverted
bitmaps of all four tag kinds plus the `_VAR` marker. -/
def add_font_core (s : IndexState) (a : AddArgs) : IndexState × Nat :=
  let path_hash := hash_path a.path
  let s1 :=
    match dbGet s.db_path_to_id path_hash with
    | some entry => remove_font_by_id s entry.font_id
    | none => s
  let font_id := s1.next_id
  let s2 := { s1 with next_id := s1.next_id + 1 }
  let meta : IndexedFontMeta :=
    ⟨a.path, a.ttc_index, a.names, a.is_variable, a.weight_class,
     a.width_class, a.family_class, build_cmap_bitmap a.codepoints⟩
  let s3 := { s2 with db_metadata := dbPut s2.db_metadata font_id meta }
  let entry : PathEntry := ⟨font_id, a.mtime⟩
  let s4 := { s3 with db_path_to_id := dbPut s3.db_path_to_id path_hash entry }
  let s5 := (a.axis_tags ++ a.feature_tags ++ a.script_tags ++ a.table_tags).foldl
    (fun st t => add_to_inverted_index st (tag_to_u32 t) font_id) s4
  let s6 := if a.is_variable then add_to_inverted_index s5 tagMarkerVAR font_id
            else s5
  (s6, font_id)

/-- `IndexWriter::add_font` returns `Result<FontID>`; its only failure paths
are storage / serialization IO (not modelled), none of which inspect the
allocated ID. -/
def add_font (s : IndexState) (a : AddArgs) : Except String (IndexState × Nat) :=
  .ok (add_font_core s a)

/-- Fold `add_font` over a list of faces starting from a fresh index. -/
def buildIndex (faces : List AddArgs) : IndexState :=
  faces.foldl (fun s a => (add_font_core s a).1) emptyIndex

/-- `IndexReader::get_tag_bitmap`: missing tags give the empty bitmap. -/
def get_tag_bitmap (s : IndexState) (tagU : Nat) : List Nat :=
  (dbGet s.db_inverted tagU).getD []

/-- `intersect_optional`. -/
def intersect_optional (opt : Option (List Nat)) (other : List Nat) : List Nat :=
  match opt with
  | some bm => bitmapIntersect bm other
  | none => other

/-- `IndexReader::get_candidate_bitmap`: intersect the bitmaps of every tag
clause (all four kinds share one keyspace) and the `_VAR` marker; with no
tag clause at all, fall back to all stored IDs (`id as u32`). -/
def get_candidate_bitmap (s : IndexState) (q : Query) : List Nat :=
  let step := fun (acc : Option (List Nat)) (t : Tag) =>
    some (intersect_optional acc (get_tag_bitmap s (tag_to_u32 t)))
  let r := q.axes.foldl step none
  let r := q.features.foldl step r
  let r := q.scripts.foldl step r
  let r := q.tables.foldl step r
  let r := if q.variable_only
           then some (intersect_optional r (get_tag_bitmap s tagMarkerVAR))
           else r
  match r with
  | some bm => bm
  | none => s.db_metadata.foldl (fun all kv => bitmapInsert (kv.1 % U32LIMIT) all) []

/-- `matches_family_class`. -/
def matches_family_class (major sub : Nat) (filter : FamilyClassFilter) : Bool :=
  if major ≠ filter.major then false
  else
    match filter.subclass with
    | some expected => sub = expected
    | none => true

/-- `IndexReader::passes_filters`: the residual (non-bitmap) clauses — name
patterns, weight, width, family class, and the codepoint check against the
stored cmap bitmap, which is skipped entirely when the stored bitmap byte
string is empty (deserialization of a bitmap written by `build_cmap_bitmap`
always succeeds). -/
def passes_filters (meta : IndexedFontMeta) (q : Query) : Bool :=
  nameClause q.name_patterns meta.names
  && rangeClause q.weight_range meta.weight_class
  && rangeClause q.width_range meta.width_class
  && (match q.family_class with
      | some filter =>
          match meta.family_class with
          | some (major, sub) => matches_family_class major sub filter
          | none => false
      | none => true)
  && (if !q.codepoints.isEmpty && !meta.cmap_bitmap.isEmpty then
        q.codepoints.all (fun cp => meta.cmap_bitmap.contains cp)
      else true)

/-- `hydrate_match`: rebuild a `TypgFontFaceMatch` from a stored record; the
four tag sets and the codepoint list are not stored and come back empty. -/
def hydrate_match (meta : IndexedFontMeta) : TypgFontFaceMatch :=
  ⟨⟨meta.path, meta.ttc_index⟩,
   ⟨meta.names, [], [], [], [], [], meta.is_variable, meta.weight_class,
    meta.width_class, meta.family_class⟩⟩

/-- `IndexReader::find`: phase 1 candidate bitmap, phase 2 hydrate +
residual filter (candidates whose metadata row is gone are skipped), then
sort by `(path, ttc_index)`. -/
def find (s : IndexState) (q : Query) : List TypgFontFaceMatch :=
  let candidates := get_candidate_bitmap s q
  let ms := candidates.filterMap (fun font_id =>
    match dbGet s.db_metadata font_id with
    | some meta =>
        if passes_filters meta q then some (hydrate_match meta) else none
    | none => none)
  sort_matches ms

/-- `IndexReader::list_all`: hydrate every stored row, then sort. -/
def list_all (s : IndexState) : List TypgFontFaceMatch :=
  sort_matches (s.db_metadata.map (fun kv => hydrate_match kv.2))

/-! ## Helper lemmas -/

theorem dropWhile_forall_false {p : Nat → Bool} {l : Str}
    (h : ∀ b ∈ l, p b = false) : l.dropWhile p = l := by
  cases l with
  | nil => rfl
  | cons b r => simp [List.dropWhile, h b (List.mem_cons_self b r)]

theorem trimBytes_id {l : Str} (h : ∀ b ∈ l, isWsByte b = false) :
    trimBytes l = l := by
  unfold trimBytes
  rw [dropWhile_forall_false h,
    dropWhile_forall_false (fun b hb => h b (List.mem_reverse.mp hb)),
    List.reverse_reverse]

theorem toAsciiLower_id {l : Str} (h : ∀ b ∈ l, ¬(0x41 ≤ b ∧ b ≤ 0x5A)) :
    toAsciiLower l = l := by
  induction l with
  | nil => rfl
  | cons b r ih =>
      simp only [toAsciiLower, List.map] at *
      rw [if_neg (h b (List.mem_cons_self b r))]
      rw [ih (fun x hx => h x (List.mem_cons_of_mem b hx))]

theorem splitOnce_eq_none {sep : Nat} {l : Str} (h : sep ∉ l) :
    splitOnce sep l = none := by
  induction l with
  | nil => rfl
  | cons b r ih =>
      have hb : ¬ b = sep := fun hc => h (hc ▸ List.mem_cons_self b r)
      have hr : sep ∉ r := fun hc => h (List.mem_cons_of_mem b hc)
      simp [splitOnce, hb, ih hr]

theorem lookup_family_name_hex (rest : Str) :
    lookupFamilyClassByName (0x30 :: 0x78 :: rest) = none := by
  simp [lookupFamilyClassByName]

/-- Bytes accepted as lowercase hexadecimal digits. -/
def isLowerHexDigit (b : Nat) : Bool :=
  (decide (0x30 ≤ b) && decide (b ≤ 0x39)) ||
  (decide (0x61 ≤ b) && decide (b ≤ 0x66))

theorem add_to_inverted_index_path (s : IndexState) (tagU fid : Nat) :
    (add_to_inverted_index s tagU fid).db_path_to_id = s.db_path_to_id := rfl

theorem add_to_inverted_index_meta (s : IndexState) (tagU fid : Nat) :
    (add_to_inverted_index s tagU fid).db_metadata = s.db_metadata := rfl

theorem add_to_inverted_index_next (s : IndexState) (tagU fid : Nat) :
    (add_to_inverted_index s tagU fid).next_id = s.next_id := rfl

theorem foldlInv_path (fid : Nat) (ts : List Tag) (s : IndexState) :
    (ts.foldl (fun st t => add_to_inverted_index st (tag_to_u32 t) fid) s).db_path_to_id
      = s.db_path_to_id := by
  induction ts generalizing s with
  | nil => rfl
  | cons t ts ih => exact ih (add_to_inverted_index s (tag_to_u32 t) fid)

theorem foldlInv_meta (fid : Nat) (ts : List Tag) (s : IndexState) :
    (ts.foldl (fun st t => add_to_inverted_index st (tag_to_u32 t) fid) s).db_metadata
      = s.db_metadata := by
  induction ts generalizing s with
  | nil => rfl
  | cons t ts ih => exact ih (add_to_inverted_index s (tag_to_u32 t) fid)

theorem foldlInv_next (fid : Nat) (ts : List Tag) (s : IndexState) :
    (ts.foldl (fun st t => add_to_inverted_index st (tag_to_u32 t) fid) s).next_id
      = s.next_id := by
  induction ts generalizing s with
  | nil => rfl
  | cons t ts ih => exact ih (add_to_inverted_index s (tag_to_u32 t) fid)

theorem add_font_core_path (s : IndexState) (a : AddArgs) :
    dbGet ((add_font_core s a).1).db_path_to_id (hash_path a.path) =
      some ⟨s.next_id, a.mtime⟩ := by
  unfold add_font_core
  cases hg : dbGet s.db_path_to_id (hash_path a.path) with
  | none =>
      by_cases hvar : a.is_variable <;>
        simp [hg, hvar, foldlInv_path, add_to_inverted_index_path, dbGet_dbPut]
  | some entry =>
      by_cases hvar : a.is_variable <;>
        simp [hg, hvar, foldlInv_path, add_to_inverted_index_path, dbGet_dbPut,
          remove_font_by_id]

/-! ## Claims -/

/-- C7: for every valid tag t (four printable-ASCII bytes), parsing the
rendered string gives t back: `tag4 (tag_to_string t) = .ok t`; trailing
spaces are preserved by rendering and re-absorbed by the parse padding. -/
theorem C7_tag_roundtrip (t : Tag) (h : validTag t) :
    tag4 (tag_to_string t) = .ok t := by
  obtain ⟨b0, b1, b2, b3⟩ := t
  obtain ⟨⟨h0l, h0u⟩, ⟨h1l, h1u⟩, ⟨h2l, h2u⟩, ⟨h3l, h3u⟩⟩ := h
  simp only at h0l h0u h1l h1u h2l h2u h3l h3u
  have hs : tag_to_string ⟨b0, b1, b2, b3⟩ = [b0, b1, b2, b3] := by
    simp [tag_to_string, utf8Lossy, utf8LossyGo,
      show b0 ≤ 0x7F by omega, show b1 ≤ 0x7F by omega,
      show b2 ≤ 0x7F by omega, show b3 ≤ 0x7F by omega]
  rw [hs]
  simp [tag4, h0l, h0u, h1l, h1u, h2l, h2u, h3l, h3u]

/-- Witness for C7 at the concrete tag "ab  " (with trailing pad spaces). -/
theorem C7_witness :
    validTag ⟨0x61, 0x62, 0x20, 0x20⟩ ∧
    tag4 (tag_to_string ⟨0x61, 0x62, 0x20, 0x20⟩) = .ok ⟨0x61, 0x62, 0x20, 0x20⟩ :=
  ⟨by decide, C7_tag_roundtrip ⟨0x61, 0x62, 0x20, 0x20⟩ (by decide)⟩

/-- C8 counterexample: the hex input "0x0008" parses to major 8 with no
subclass, not to the high/low byte split (major 0, subclass 8) the claim
asserts for every `0xHHHH` input. -/
theorem C8_counterexample :
    parseFamilyClass [0x30, 0x78, 0x30, 0x30, 0x30, 0x38] =
      .ok ⟨8, none⟩ ∧
    parseFamilyClass [0x30, 0x78, 0x30, 0x30, 0x30, 0x38] ≠
      .ok ⟨0, some 8⟩ := by
  decide

/-- C8 amended: for a hex input `0x` followed by lowercase hex digits whose
value is v, `parse_family_class` yields the high/low byte split
(major v/256, subclass v mod 256) only when v exceeds 0x00FF; a value up to
0x00FF becomes a bare major class with no subclass. -/
theorem C8_hex_family_class (s : Str) (v : Nat)
    (hdig : s.all isLowerHexDigit = true)
    (hv : parseU16Hex s = some v) :
    parseFamilyClass (0x30 :: 0x78 :: s) =
      .ok (if v ≤ 0xFF then ⟨v, none⟩ else ⟨v / 256, some (v % 256)⟩) := by
  have hall : ∀ b ∈ s, isLowerHexDigit b = true := by
    intro b hb
    exact List.all_eq_true.mp hdig b hb
  have hbound : ∀ b ∈ s, (0x30 ≤ b ∧ b ≤ 0x39) ∨ (0x61 ≤ b ∧ b ≤ 0x66) := by
    intro b hb
    have := hall b hb
    simp only [isLowerHexDigit, Bool.or_eq_true, Bool.and_eq_true,
      decide_eq_true_eq] at this
    exact this
  have hws : ∀ b ∈ (0x30 :: 0x78 :: s), isWsByte b = false := by
    intro b hb
    rcases List.mem_cons.mp hb with h | hb
    · subst h; decide
    rcases List.mem_cons.mp hb with h | hb
    · subst h; decide
    · rcases hbound b hb with ⟨h1, h2⟩ | ⟨h1, h2⟩ <;>
        (simp [isWsByte]; omega)
  have hup : ∀ b ∈ (0x30 :: 0x78 :: s), ¬(0x41 ≤ b ∧ b ≤ 0x5A) := by
    intro b hb
    rcases List.mem_cons.mp hb with h | hb
    · subst h; decide
    rcases List.mem_cons.mp hb with h | hb
    · subst h; decide
    · rcases hbound b hb with ⟨h1, h2⟩ | ⟨h1, h2⟩ <;> omega
  have hdot : (0x2E : Nat) ∉ (0x30 :: 0x78 :: s) := by
    intro hc
    rcases List.mem_cons.mp hc with h | hc
    · exact absurd h (by decide)
    rcases List.mem_cons.mp hc with h | hc
    · exact absurd h (by decide)
    · rcases hbound _ hc with ⟨h1, h2⟩ | ⟨h1, h2⟩ <;> omega
  have hcolon : (0x3A : Nat) ∉ (0x30 :: 0x78 :: s) := by
    intro hc
    rcases List.mem_cons.mp hc with h | hc
    · exact absurd h (by decide)
    rcases List.mem_cons.mp hc with h | hc
    · exact absurd h (by decide)
    · rcases hbound _ hc with ⟨h1, h2⟩ | ⟨h1, h2⟩ <;> omega
  unfold parseFamilyClass
  rw [trimBytes_id hws]
  dsimp only
  rw [toAsciiLower_id hup]
  rw [lookup_family_name_hex]
  unfold parseMajorAndSubclass
  rw [splitOnce_eq_none hdot, splitOnce_eq_none hcolon]
  simp [stripHexMark, hv, familyClassFromValue]

/-- Witness for C8 at the input "0x0805" (value 0x0805 = 2053 > 0x00FF). -/
theorem C8_witness :
    [0x30, 0x38, 0x30, 0x35].all isLowerHexDigit = true ∧
    parseU16Hex [0x30, 0x38, 0x30, 0x35] = some 2053 ∧
    parseFamilyClass (0x30 :: 0x78 :: [0x30, 0x38, 0x30, 0x35]) =
      .ok (if 2053 ≤ 0xFF then ⟨2053, none⟩ else ⟨2053 / 256, some (2053 % 256)⟩) :=
  ⟨by decide, by decide,
    C8_hex_family_class [0x30, 0x38, 0x30, 0x35] 2053 (by decide) (by decide)⟩

/-- C9: every match returned by `find` or `list_all` is the hydration of a
stored record: its axis, feature, script and table tag lists and its
codepoint list are empty, and only names, is_variable, weight_class,
width_class, family_class come from the store. -/
theorem C9_hydrated_projection (s : IndexState) (q : Query) :
    (∀ m ∈ find s q,
      m.metadata.axis_tags = [] ∧ m.metadata.feature_tags = [] ∧
      m.metadata.script_tags = [] ∧ m.metadata.table_tags = [] ∧
      m.metadata.codepoints = [] ∧
      ∃ id meta, dbGet s.db_metadata id = some meta ∧
        m = hydrate_match meta ∧ m.metadata.names = meta.names ∧
        m.metadata.is_variable = meta.is_variable ∧
        m.metadata.weight_class = meta.weight_class ∧
        m.metadata.width_class = meta.width_class ∧
        m.metadata.family_class = meta.family_class) ∧
    (∀ m ∈ list_all s,
      m.metadata.axis_tags = [] ∧ m.metadata.feature_tags = [] ∧
      m.metadata.script_tags = [] ∧ m.metadata.table_tags = [] ∧
      m.metadata.codepoints = [] ∧
      ∃ kv ∈ s.db_metadata, m = hydrate_match kv.2) := by
  constructor
  · intro m hm
    rw [find, sort_matches, mem_sortByLe] at hm
    obtain ⟨fid, hfid, hf⟩ := List.mem_filterMap.mp hm
    cases hget : dbGet s.db_metadata fid with
    | none => rw [hget] at hf; exact absurd hf (by simp)
    | some meta =>
        rw [hget] at hf
        dsimp only at hf
        cases hp : passes_filters meta q with
        | false => rw [hp] at hf; simp at hf
        | true =>
            rw [hp] at hf
            simp only [if_true] at hf
            have hmeq : m = hydrate_match meta := (Option.some.inj hf).symm
            subst hmeq
            exact ⟨rfl, rfl, rfl, rfl, rfl, fid, meta, hget, rfl, rfl, rfl, rfl, rfl, rfl⟩
  · intro m hm
    rw [list_all, sort_matches, mem_sortByLe] at hm
    obtain ⟨kv, hkv, hf⟩ := List.mem_map.mp hm
    have hmeq : m = hydrate_match kv.2 := hf.symm
    subst hmeq
    exact ⟨rfl, rfl, rfl, rfl, rfl, kv, hkv, rfl⟩

/-- Witness for C9: a one-face index where `find` returns the face. -/
theorem C9_witness :
    (hydrate_match ⟨1, none, [[0x41]], false, none, none, none, []⟩ ∈
      find (buildIndex [{ path := 1, names := [[0x41]] }]) {}) ∧
    (hydrate_match ⟨1, none, [[0x41]], false, none, none, none, []⟩).metadata.axis_tags = [] :=
  ⟨by decide,
    ((C9_hydrated_projection (buildIndex [{ path := 1, names := [[0x41]] }]) {}).1
      (hydrate_match ⟨1, none, [[0x41]], false, none, none, none, []⟩) (by decide)).1⟩

/-- C10: a stored face whose serialized codepoint bitmap is the empty byte
string passes every codepoint clause — `passes_filters` behaves as if the
query had no codepoint clause at all — whereas the live matcher rejects any
face whose codepoint coverage misses a requested codepoint. -/
theorem C10_empty_cmap_vacuous :
    (∀ (q : Query) (meta : IndexedFontMeta), meta.cmap_bitmap = [] →
      passes_filters meta q = passes_filters meta { q with codepoints := [] }) ∧
    (∀ (q : Query) (m : TypgFontFaceMeta), q.codepoints ≠ [] →
      (∃ cp ∈ q.codepoints, cp ∉ m.codepoints) →
      q.matches m = false) := by
  constructor
  · intro q meta h
    simp [passes_filters, h]
  · intro q m hne hmiss
    have hcl : codepointClause q.codepoints m.codepoints = false := by
      cases hb : codepointClause q.codepoints m.codepoints with
      | false => rfl
      | true =>
          exfalso
          obtain ⟨cp, hmem, hnot⟩ := hmiss
          unfold codepointClause at hb
          rw [if_neg (by simpa [List.isEmpty_iff] using hne)] at hb
          have := List.all_eq_true.mp hb cp hmem
          simp only [List.any_eq_true, decide_eq_true_eq] at this
          obtain ⟨c, hcm, hceq⟩ := this
          exact hnot (hceq ▸ hcm)
    simp [Query.matches, hcl]

/-- Witness for C10: an empty-bitmap record passes a codepoint query that
the live matcher rejects on a face with no codepoints. -/
theorem C10_witness :
    passes_filters ⟨1, none, [], false, none, none, none, []⟩ { codepoints := [0x41] } =
      passes_filters ⟨1, none, [], false, none, none, none, []⟩ { codepoints := ([] : List Nat) } ∧
    Query.matches { codepoints := [0x41] } {} = false :=
  ⟨C10_empty_cmap_vacuous.1 { codepoints := [0x41] } ⟨1, none, [], false, none, none, none, []⟩ rfl,
    C10_empty_cmap_vacuous.2 { codepoints := [0x41] } {} (by decide)
      ⟨0x41, by decide, by decide⟩⟩

/-- C4 counterexample: with the allocator at 2^32 (reachable after 2^32
additions), `add_font` does not reject the oversized FontID: it succeeds,
returns ID 2^32, and records `2^32 as u32 = 0` in the tag's bitmap. -/
theorem C4_counterexample :
    (add_font_core ⟨[], [], [], 4294967296⟩
        { path := 9, feature_tags := [⟨0x73, 0x6D, 0x63, 0x70⟩] }).2 = 4294967296 ∧
    add_font ⟨[], [], [], 4294967296⟩
        { path := 9, feature_tags := [⟨0x73, 0x6D, 0x63, 0x70⟩] } =
      .ok (add_font_core ⟨[], [], [], 4294967296⟩
        { path := 9, feature_tags := [⟨0x73, 0x6D, 0x63, 0x70⟩] }) ∧
    get_tag_bitmap (add_font_core ⟨[], [], [], 4294967296⟩
        { path := 9, feature_tags := [⟨0x73, 0x6D, 0x63, 0x70⟩] }).1
      (tag_to_u32 ⟨0x73, 0x6D, 0x63, 0x70⟩) = [0] := by
  refine ⟨by decide, rfl, by decide⟩

/-- C4 amended: `add_font` never fails on the ID value; inserting a FontID
into an inverted bitmap stores `font_id as u32`, i.e. the ID truncated to
its low 32 bits — IDs at or above 2^32 are recorded modulo 2^32, not
rejected. -/
theorem C4_truncation :
    (∀ (s : IndexState) (a : AddArgs), add_font s a = .ok (add_font_core s a)) ∧
    (∀ (s : IndexState) (tagU fid : Nat),
      get_tag_bitmap (add_to_inverted_index s tagU fid) tagU =
        bitmapInsert (fid % U32LIMIT) (get_tag_bitmap s tagU)) ∧
    (∀ (s : IndexState) (tagU fid : Nat),
      (fid % U32LIMIT) ∈ get_tag_bitmap (add_to_inverted_index s tagU fid) tagU) := by
  refine ⟨fun s a => rfl, ?_, ?_⟩
  · intro s tagU fid
    simp [add_to_inverted_index, get_tag_bitmap, dbGet_dbPut]
  · intro s tagU fid
    have h : get_tag_bitmap (add_to_inverted_index s tagU fid) tagU =
        bitmapInsert (fid % U32LIMIT) (get_tag_bitmap s tagU) := by
      simp [add_to_inverted_index, get_tag_bitmap, dbGet_dbPut]
    rw [h, mem_bitmapInsert]
    exact Or.inl rfl

/-- C5: `needs_update` is true iff no path entry exists for the path's hash
or the stored `mtime_secs` differs; and after `add_font(path, .., mtime)`
(whose effect the single commit makes visible), `needs_update(path, mtime)`
is false while `needs_update(path, mtime+1)` is true. -/
theorem C5_needs_update :
    (∀ (s : IndexState) (path mtime : Nat),
      needs_update s path mtime = true ↔
        dbGet s.db_path_to_id (hash_path path) = none ∨
        ∃ e, dbGet s.db_path_to_id (hash_path path) = some e ∧
          e.mtime_secs ≠ mtime) ∧
    (∀ (s s' : IndexState) (a : AddArgs) (fid : Nat),
      add_font s a = .ok (s', fid) →
      needs_update s' a.path a.mtime = false ∧
      needs_update s' a.path (a.mtime + 1) = true) := by
  constructor
  · intro s path mtime
    unfold needs_update
    cases h : dbGet s.db_path_to_id (hash_path path) with
    | none => simp
    | some e => simp [decide_eq_true_eq]
  · intro s s' a fid h
    have hpair : add_font_core s a = (s', fid) := Except.ok.inj h
    have hs' : s' = (add_font_core s a).1 := by rw [hpair]
    subst hs'
    have hp := add_font_core_path s a
    constructor
    · unfold needs_update
      rw [hp]
      simp
    · unfold needs_update
      rw [hp]
      simp

/-- Witness for C5 on a fresh index with mtime 7. -/
theorem C5_witness :
    needs_update (add_font_core emptyIndex { path := 1, mtime := 7 }).1 1 7 = false ∧
    needs_update (add_font_core emptyIndex { path := 1, mtime := 7 }).1 1 (7 + 1) = true :=
  C5_needs_update.2 emptyIndex (add_font_core emptyIndex { path := 1, mtime := 7 }).1
    { path := 1, mtime := 7 } (add_font_core emptyIndex { path := 1, mtime := 7 }).2 rfl

/-- A one-root, one-file environment used by concrete counterexamples:
root 0 contains the single font file 5 holding one face named "A". -/
def sampleWorld : World :=
  { rootFiles := fun r => if r = 0 then some [5] else none,
    faces := fun p => if p = 5 then some [(none, { names := [[0x41]] })] else none }

/-- C3 counterexample: the core search pipeline called with `jobs = 0` does
not fail: it returns the ordinary result (rayon's `num_threads(0)` means
the default thread count, and `search` performs no jobs validation). -/
theorem C3_counterexample :
    search sampleWorld [0] {} { jobs := some 0 } =
      .ok [⟨⟨5, none⟩, { names := [[0x41]] }⟩] := by
  decide

/-- C3 amended: `jobs = 0` is rejected with an invalid-argument error by the
CLI entry point (`run_find`) before the core is invoked; the core `search`
itself never validates `jobs`, and its result does not depend on it (a zero
value merely selects rayon's default parallelism). -/
theorem C3_jobs_layering :
    (∀ (w : World) (paths : List Nat) (q : Query) (opts : SearchOptions),
      opts.jobs = some 0 →
      run_find w paths q opts =
        .error (.invalidArgument "--jobs must be at least 1")) ∧
    (∀ (w : World) (paths : List Nat) (q : Query) (fl : Bool) (j j' : Option Nat),
      search w paths q ⟨fl, j⟩ = search w paths q ⟨fl, j'⟩) := by
  constructor
  · intro w paths q opts h
    simp [run_find, h]
  · intro w paths q fl j j'
    rfl

/-- Witness for C3: the CLI layer rejects `--jobs 0` on the sample world. -/
theorem C3_witness :
    (SearchOptions.jobs { jobs := some 0 } = some 0) ∧
    run_find sampleWorld [0] {} { jobs := some 0 } =
      .error (.invalidArgument "--jobs must be at least 1") :=
  ⟨rfl, C3_jobs_layering.1 sampleWorld [0] {} { jobs := some 0 } rfl⟩

theorem containsAllTags_cons (hay : List Tag) (t : Tag) (l : List Tag)
    (hc : containsAllTags hay (t :: l) = true) : containsAllTags hay l = true := by
  have hc' : (t :: l).all (fun x => hay.any (fun y => y = x)) = true := by
    simpa [containsAllTags] using hc
  rw [List.all_cons, Bool.and_eq_true] at hc'
  unfold containsAllTags
  by_cases hl : l.isEmpty
  · rw [if_pos hl]
  · rw [if_neg hl]
    exact hc'.2

theorem codepointClause_cons (cp : Nat) (l mc : List Nat)
    (hc : codepointClause (cp :: l) mc = true) : codepointClause l mc = true := by
  have hc' : (cp :: l).all (fun x => mc.any (fun c => c = x)) = true := by
    simpa [codepointClause] using hc
  rw [List.all_cons, Bool.and_eq_true] at hc'
  unfold codepointClause
  by_cases hl : l.isEmpty
  · rw [if_pos hl]
  · rw [if_neg hl]
    exact hc'.2

/-- The matcher as its right-nested conjunction of clauses. -/
theorem matches_clauses (q : Query) (m : TypgFontFaceMeta) :
    q.matches m = true ↔
      ((!(q.variable_only && !m.is_variable)) = true ∧
       containsAllTags m.axis_tags q.axes = true ∧
       containsAllTags m.feature_tags q.features = true ∧
       containsAllTags m.script_tags q.scripts = true ∧
       containsAllTags m.table_tags q.tables = true ∧
       rangeClause q.weight_range m.weight_class = true ∧
       rangeClause q.width_range m.width_class = true ∧
       familyClause q.family_class m.family_class = true ∧
       codepointClause q.codepoints m.codepoints = true ∧
       nameClause q.name_patterns m.names = true) := by
  unfold Query.matches
  simp only [Bool.and_eq_true, and_assoc]

/-- C6 counterexample: adding one more name pattern to a query that already
has one can grow the match set: the face named "B" matches the two-pattern
query but not the one-pattern query it extends. -/
theorem C6_counterexample :
    Query.matches
      { name_patterns := [fun s => s == [0x41], fun s => s == [0x42]] }
      { names := [[0x42]] } = true ∧
    Query.matches { name_patterns := [fun s => s == [0x41]] }
      { names := [[0x42]] } = false :=
  ⟨rfl, rfl⟩

/-- C6 amended: the matcher is monotone for every clause extension except
enlarging a non-empty name-pattern set: adding a required tag of any kind,
a required codepoint, the variable flag, a weight or width range where
none was set, a family-class filter where none was set, or name patterns
where none were set, can only shrink the match set. -/
theorem C6_monotonicity :
    (∀ (q : Query) (m : TypgFontFaceMeta) (t : Tag),
      Query.matches { q with axes := t :: q.axes } m = true → q.matches m = true) ∧
    (∀ (q : Query) (m : TypgFontFaceMeta) (t : Tag),
      Query.matches { q with features := t :: q.features } m = true → q.matches m = true) ∧
    (∀ (q : Query) (m : TypgFontFaceMeta) (t : Tag),
      Query.matches { q with scripts := t :: q.scripts } m = true → q.matches m = true) ∧
    (∀ (q : Query) (m : TypgFontFaceMeta) (t : Tag),
      Query.matches { q with tables := t :: q.tables } m = true → q.matches m = true) ∧
    (∀ (q : Query) (m : TypgFontFaceMeta) (cp : Nat),
      Query.matches { q with codepoints := cp :: q.codepoints } m = true → q.matches m = true) ∧
    (∀ (q : Query) (m : TypgFontFaceMeta), q.variable_only = false →
      Query.matches { q with variable_only := true } m = true → q.matches m = true) ∧
    (∀ (q : Query) (m : TypgFontFaceMeta) (r : Nat × Nat), q.weight_range = none →
      Query.matches { q with weight_range := some r } m = true → q.matches m = true) ∧
    (∀ (q : Query) (m : TypgFontFaceMeta) (r : Nat × Nat), q.width_range = none →
      Query.matches { q with width_range := some r } m = true → q.matches m = true) ∧
    (∀ (q : Query) (m : TypgFontFaceMeta) (f : FamilyClassFilter), q.family_class = none →
      Query.matches { q with family_class := some f } m = true → q.matches m = true) ∧
    (∀ (q : Query) (m : TypgFontFaceMeta) (ps : List NamePattern), q.name_patterns = [] →
      Query.matches { q with name_patterns := ps } m = true → q.matches m = true) := by
  refine ⟨?_, ?_, ?_, ?_, ?_, ?_, ?_, ?_, ?_, ?_⟩
  · intro q m t h
    rw [matches_clauses] at h ⊢
    obtain ⟨h1, h2, h3, h4, h5, h6, h7, h8, h9, h10⟩ := h
    exact ⟨h1, containsAllTags_cons _ _ _ h2, h3, h4, h5, h6, h7, h8, h9, h10⟩
  · intro q m t h
    rw [matches_clauses] at h ⊢
    obtain ⟨h1, h2, h3, h4, h5, h6, h7, h8, h9, h10⟩ := h
    exact ⟨h1, h2, containsAllTags_cons _ _ _ h3, h4, h5, h6, h7, h8, h9, h10⟩
  · intro q m t h
    rw [matches_clauses] at h ⊢
    obtain ⟨h1, h2, h3, h4, h5, h6, h7, h8, h9, h10⟩ := h
    exact ⟨h1, h2, h3, containsAllTags_cons _ _ _ h4, h5, h6, h7, h8, h9, h10⟩
  · intro q m t h
    rw [matches_clauses] at h ⊢
    obtain ⟨h1, h2, h3, h4, h5, h6, h7, h8, h9, h10⟩ := h
    exact ⟨h1, h2, h3, h4, containsAllTags_cons _ _ _ h5, h6, h7, h8, h9, h10⟩
  · intro q m cp h
    rw [matches_clauses] at h ⊢
    obtain ⟨h1, h2, h3, h4, h5, h6, h7, h8, h9, h10⟩ := h
    exact ⟨h1, h2, h3, h4, h5, h6, h7, h8, codepointClause_cons _ _ _ h9, h10⟩
  · intro q m hv h
    rw [matches_clauses] at h ⊢
    obtain ⟨h1, h2, h3, h4, h5, h6, h7, h8, h9, h10⟩ := h
    refine ⟨?_, h2, h3, h4, h5, h6, h7, h8, h9, h10⟩
    rw [hv]
    simp
  · intro q m r hw h
    rw [matches_clauses] at h ⊢
    obtain ⟨h1, h2, h3, h4, h5, h6, h7, h8, h9, h10⟩ := h
    refine ⟨h1, h2, h3, h4, h5, ?_, h7, h8, h9, h10⟩
    rw [hw]
    rfl
  · intro q m r hw h
    rw [matches_clauses] at h ⊢
    obtain ⟨h1, h2, h3, h4, h5, h6, h7, h8, h9, h10⟩ := h
    refine ⟨h1, h2, h3, h4, h5, h6, ?_, h8, h9, h10⟩
    rw [hw]
    rfl
  · intro q m f hf h
    rw [matches_clauses] at h ⊢
    obtain ⟨h1, h2, h3, h4, h5, h6, h7, h8, h9, h10⟩ := h
    refine ⟨h1, h2, h3, h4, h5, h6, h7, ?_, h9, h10⟩
    rw [hf]
    rfl
  · intro q m ps hp h
    rw [matches_clauses] at h ⊢
    obtain ⟨h1, h2, h3, h4, h5, h6, h7, h8, h9, h10⟩ := h
    refine ⟨h1, h2, h3, h4, h5, h6, h7, h8, h9, ?_⟩
    rw [hp]
    rfl

theorem optNatLe_trans (a b c : Option Nat) (h1 : optNatLe a b = true)
    (h2 : optNatLe b c = true) : optNatLe a c = true := by
  cases a <;> cases b <;> cases c <;> simp_all [optNatLe] <;> omega

theorem optNatLe_total (a b : Option Nat) :
    optNatLe a b = true ∨ optNatLe b a = true := by
  cases a <;> cases b <;> simp [optNatLe] <;> omega

theorem matchLe_trans (a b c : TypgFontFaceMatch) (h1 : matchLe a b = true)
    (h2 : matchLe b c = true) : matchLe a c = true := by
  simp only [matchLe, Bool.or_eq_true, Bool.and_eq_true, decide_eq_true_eq] at *
  rcases h1 with h1 | ⟨e1, t1⟩ <;> rcases h2 with h2 | ⟨e2, t2⟩
  · left; omega
  · left; omega
  · left; omega
  · right; exact ⟨e1.trans e2, optNatLe_trans _ _ _ t1 t2⟩

theorem matchLe_total (a b : TypgFontFaceMatch) :
    matchLe a b = true ∨ matchLe b a = true := by
  simp only [matchLe, Bool.or_eq_true, Bool.and_eq_true, decide_eq_true_eq]
  rcases Nat.lt_trichotomy a.source.path b.source.path with h | h | h
  · exact Or.inl (Or.inl h)
  · rcases optNatLe_total a.source.ttc_index b.source.ttc_index with ht | ht
    · exact Or.inl (Or.inr ⟨h, ht⟩)
    · exact Or.inr (Or.inr ⟨h.symm, ht⟩)
  · exact Or.inr (Or.inl h)

/-- Every `sort_matches` output is sorted by `(path, ttc_index)`. -/
theorem sort_matches_sorted (l : List TypgFontFaceMatch) :
    (sort_matches l).Pairwise (fun a b => matchLe a b = true) :=
  sortByLe_sorted matchLe matchLe_trans matchLe_total l

theorem dbGet_mem {l : List (Nat × β)} {k : Nat} {v : β}
    (h : dbGet l k = some v) : (k, v) ∈ l := by
  induction l with
  | nil => exact absurd h (by simp [dbGet])
  | cons kv rest ih =>
      obtain ⟨k0, v0⟩ := kv
      by_cases h0 : k0 = k
      · subst h0
        rw [dbGet, if_pos rfl] at h
        exact (Option.some.inj h) ▸ List.mem_cons_self _ _
      · rw [dbGet, if_neg h0] at h
        exact List.mem_cons_of_mem _ (ih h)

theorem mapExcept_forall2 {f : α → Except ε β} :
    ∀ {l : List α} {bs : List β}, mapExcept f l = .ok bs →
      List.Forall₂ (fun a b => f a = .ok b) l bs := by
  intro l
  induction l with
  | nil =>
      intro bs h
      rw [mapExcept] at h
      rw [← Except.ok.inj h]
      exact List.Forall₂.nil
  | cons a r ih =>
      intro bs h
      rw [mapExcept] at h
      cases hf : f a with
      | error e => rw [hf] at h; exact absurd h (by simp)
      | ok b =>
          rw [hf] at h
          cases hr : mapExcept f r with
          | error e => rw [hr] at h; exact absurd h (by simp)
          | ok bs' =>
              rw [hr] at h
              rw [← Except.ok.inj h]
              exact List.Forall₂.cons hf (ih hr)

theorem load_metadata_ok {w : World} {p : Nat} {b : List TypgFontFaceMatch}
    (h : load_metadata w p = .ok b) :
    ∃ fs, w.faces p = some fs ∧ b = fs.map (fun f => ⟨⟨p, f.1⟩, f.2⟩) := by
  unfold load_metadata at h
  cases hw : w.faces p with
  | none => rw [hw] at h; exact absurd h (by simp)
  | some fs =>
      rw [hw] at h
      exact ⟨fs, rfl, (Except.ok.inj h).symm⟩

theorem sources_flatten_paths (w : World) :
    ∀ {cands : List Nat} {ms : List (List TypgFontFaceMatch)},
    List.Forall₂ (fun p b => load_metadata w p = .ok b) cands ms →
    ∀ m ∈ ms.flatten, m.source.path ∈ cands := by
  intro cands ms hf
  induction hf with
  | nil => intro m hm; simp at hm
  | @cons p b cands' ms' hpb hrest ih =>
      intro m hm
      rw [List.flatten_cons, List.mem_append] at hm
      rcases hm with hm | hm
      · obtain ⟨fs, hw, hb⟩ := load_metadata_ok hpb
        subst hb
        obtain ⟨f, _, hfm⟩ := List.mem_map.mp hm
        rw [← hfm]
        exact List.mem_cons_self _ _
      · exact List.mem_cons_of_mem _ (ih m hm)

theorem sources_flatten_nodup (w : World)
    (hfaces : ∀ p fs, w.faces p = some fs → (fs.map Prod.fst).Nodup) :
    ∀ {cands : List Nat} {ms : List (List TypgFontFaceMatch)},
    List.Forall₂ (fun p b => load_metadata w p = .ok b) cands ms →
    cands.Nodup →
    ((ms.flatten).map (fun m => m.source)).Nodup := by
  intro cands ms hf
  induction hf with
  | nil => intro _; simp
  | @cons p b cands' ms' hpb hrest ih =>
      intro hnd
      rcases List.nodup_cons.mp hnd with ⟨hp, hnd'⟩
      rw [List.flatten_cons, List.map_append, List.nodup_append]
      refine ⟨?_, ih hnd', ?_⟩
      · obtain ⟨fs, hw, hb⟩ := load_metadata_ok hpb
        subst hb
        rw [List.map_map]
        have : ((fun f : Option Nat × TypgFontFaceMeta =>
            TypgFontSource.mk p f.1) : Option Nat × TypgFontFaceMeta → TypgFontSource)
            = (fun t => TypgFontSource.mk p t) ∘ Prod.fst := rfl
        show (fs.map ((fun m : TypgFontFaceMatch => m.source) ∘
          (fun f => ⟨⟨p, f.1⟩, f.2⟩))).Nodup
        have heq : ((fun m : TypgFontFaceMatch => m.source) ∘
            (fun f : Option Nat × TypgFontFaceMeta => (⟨⟨p, f.1⟩, f.2⟩ : TypgFontFaceMatch)))
            = (fun t => TypgFontSource.mk p t) ∘ Prod.fst := rfl
        rw [heq, ← List.map_map]
        refine List.Nodup.map ?_ (hfaces p fs hw)
        intro x y hxy
        exact TypgFontSource.mk.inj hxy |>.2
      · intro src h1 h2
        obtain ⟨m1, hm1, hs1⟩ := List.mem_map.mp h1
        obtain ⟨m2, hm2, hs2⟩ := List.mem_map.mp h2
        obtain ⟨fs, hw, hb⟩ := load_metadata_ok hpb
        subst hb
        obtain ⟨f, _, hfm⟩ := List.mem_map.mp hm1
        have hp1 : src.path = p := by rw [← hs1, ← hfm]
        have hp2 : src.path ∈ cands' := by
          rw [← hs2]
          exact sources_flatten_paths w hrest m2 hm2
        rw [hp1] at hp2
        exact hp (by exact hp2)

/-- Roaring bitmaps keep their members strictly sorted; insertion preserves
this. -/
theorem bitmapInsert_sorted (x : Nat) (bm : List Nat)
    (h : bm.Pairwise (· < ·)) : (bitmapInsert x bm).Pairwise (· < ·) := by
  induction bm with
  | nil => simp [bitmapInsert]
  | cons y ys ih =>
      rcases List.pairwise_cons.mp h with ⟨hy, hys⟩
      by_cases h1 : x < y
      · rw [bitmapInsert, if_pos h1]
        refine List.pairwise_cons.mpr ⟨?_, h⟩
        intro b hb
        rcases List.mem_cons.mp hb with hb | hb
        · omega
        · have := hy b hb
          omega
      · by_cases h2 : x = y
        · rw [bitmapInsert, if_neg h1, if_pos h2]
          exact h
        · rw [bitmapInsert, if_neg h1, if_neg h2]
          refine List.pairwise_cons.mpr ⟨?_, ih hys⟩
          intro b hb
          rcases (mem_bitmapInsert x b ys).mp hb with hb | hb
          · omega
          · exact hy b hb

theorem strictSorted_nodup {l : List Nat} (h : l.Pairwise (· < ·)) : l.Nodup :=
  h.imp (fun hlt => Nat.ne_of_lt hlt)

theorem get_tag_bitmap_sorted (s : IndexState)
    (hbm : ∀ u bm, dbGet s.db_inverted u = some bm → bm.Pairwise (· < ·))
    (u : Nat) : (get_tag_bitmap s u).Pairwise (· < ·) := by
  unfold get_tag_bitmap
  cases hg : dbGet s.db_inverted u with
  | none => simp
  | some bm => exact hbm u bm hg

theorem intersect_optional_sorted (acc : Option (List Nat)) (other : List Nat)
    (hacc : ∀ bm, acc = some bm → bm.Pairwise (· < ·))
    (hoth : other.Pairwise (· < ·)) :
    (intersect_optional acc other).Pairwise (· < ·) := by
  cases acc with
  | none => exact hoth
  | some bm => exact (hacc bm rfl).sublist (List.filter_sublist bm)

theorem tagFold_sorted (s : IndexState)
    (hbm : ∀ u bm, dbGet s.db_inverted u = some bm → bm.Pairwise (· < ·))
    (ts : List Tag) (acc : Option (List Nat))
    (hacc : ∀ bm, acc = some bm → bm.Pairwise (· < ·)) :
    ∀ bm, ts.foldl (fun acc t =>
        some (intersect_optional acc (get_tag_bitmap s (tag_to_u32 t)))) acc = some bm →
      bm.Pairwise (· < ·) := by
  induction ts generalizing acc with
  | nil => exact hacc
  | cons t ts ih =>
      intro bm h
      refine ih _ ?_ bm h
      intro bm' h'
      rw [← Option.some.inj h']
      exact intersect_optional_sorted acc _ hacc
        (get_tag_bitmap_sorted s hbm (tag_to_u32 t))

theorem allIdsFold_sorted (rows : List (Nat × IndexedFontMeta)) :
    ∀ (acc : List Nat), acc.Pairwise (· < ·) →
    (rows.foldl (fun all kv => bitmapInsert (kv.1 % U32LIMIT) all) acc).Pairwise (· < ·) := by
  induction rows with
  | nil => intro acc h; exact h
  | cons kv rest ih =>
      intro acc h
      exact ih _ (bitmapInsert_sorted _ _ h)

theorem get_candidate_bitmap_sorted (s : IndexState) (q : Query)
    (hbm : ∀ u bm, dbGet s.db_inverted u = some bm → bm.Pairwise (· < ·)) :
    (get_candidate_bitmap s q).Pairwise (· < ·) := by
  unfold get_candidate_bitmap
  dsimp only
  set step := fun (acc : Option (List Nat)) (t : Tag) =>
    some (intersect_optional acc (get_tag_bitmap s (tag_to_u32 t))) with hstep
  have h0 : ∀ bm, (none : Option (List Nat)) = some bm → bm.Pairwise (· < ·) := by
    intro bm h; cases h
  have h1 := tagFold_sorted s hbm q.axes none h0
  have h2 := tagFold_sorted s hbm q.features _ h1
  have h3 := tagFold_sorted s hbm q.scripts _ h2
  have h4 := tagFold_sorted s hbm q.tables _ h3
  by_cases hvar : q.variable_only
  · rw [if_pos hvar]
    exact intersect_optional_sorted _ _ h4 (get_tag_bitmap_sorted s hbm tagMarkerVAR)
  · rw [if_neg hvar]
    cases hfold : (q.tables.foldl step
        (q.scripts.foldl step (q.features.foldl step (q.axes.foldl step none)))) with
    | none => exact allIdsFold_sorted s.db_metadata [] (by simp)
    | some bm => exact h4 bm hfold

/-- Distinct stored paths make `dbGet` on the metadata table injective
through the stored path. -/
theorem dbGet_path_inj (s : IndexState)
    (hpaths : (s.db_metadata.map (fun kv => kv.2.path)).Nodup)
    {f1 f2 : Nat} {m1 m2 : IndexedFontMeta}
    (h1 : dbGet s.db_metadata f1 = some m1)
    (h2 : dbGet s.db_metadata f2 = some m2)
    (hp : m1.path = m2.path) : f1 = f2 := by
  have hm1 := dbGet_mem h1
  have hm2 := dbGet_mem h2
  have := List.inj_on_of_nodup_map hpaths hm1 hm2 (by exact hp)
  exact congrArg Prod.fst this

theorem find_sources_nodup (s : IndexState) (q : Query)
    (hpaths : (s.db_metadata.map (fun kv => kv.2.path)).Nodup)
    (hbm : ∀ u bm, dbGet s.db_inverted u = some bm → bm.Pairwise (· < ·)) :
    ((find s q).map (fun m => m.source)).Nodup := by
  unfold find
  dsimp only
  rw [sort_matches]
  refine ((sortByLe_perm matchLe _).map (fun m => m.source)).nodup_iff.mpr ?_
  rw [List.map_filterMap]
  refine List.Nodup.filterMap ?_
    (strictSorted_nodup (get_candidate_bitmap_sorted s q hbm))
  intro a a' src hsa hsa'
  simp only [Option.mem_def] at hsa hsa'
  cases hga : dbGet s.db_metadata a with
  | none => rw [hga] at hsa; simp at hsa
  | some meta =>
      rw [hga] at hsa
      cases hga' : dbGet s.db_metadata a' with
      | none => rw [hga'] at hsa'; simp at hsa'
      | some meta' =>
          rw [hga'] at hsa'
          dsimp only at hsa hsa'
          by_cases hp : passes_filters meta q
          · rw [if_pos hp] at hsa
            by_cases hp' : passes_filters meta' q
            · rw [if_pos hp'] at hsa'
              dsimp only [Option.map] at hsa hsa'
              have hsrc : meta.path = meta'.path := by
                have e1 := Option.some.inj hsa
                have e2 := Option.some.inj hsa'
                have : (hydrate_match meta).source = (hydrate_match meta').source := by
                  rw [e1, e2]
                exact congrArg TypgFontSource.path this
              exact dbGet_path_inj s hpaths hga hga' hsrc
            · rw [if_neg hp'] at hsa'; simp at hsa'
          · rw [if_neg hp] at hsa; simp at hsa

theorem list_all_sources_nodup (s : IndexState)
    (hpaths : (s.db_metadata.map (fun kv => kv.2.path)).Nodup) :
    ((list_all s).map (fun m => m.source)).Nodup := by
  unfold list_all
  rw [sort_matches]
  refine ((sortByLe_perm matchLe _).map (fun m => m.source)).nodup_iff.mpr ?_
  rw [List.map_map]
  have hrows : s.db_metadata.Nodup := List.Nodup.of_map _ hpaths
  refine List.Nodup.map_on ?_ hrows
  intro x hx y hy hxy
  have hpx : x.2.path = y.2.path := by
    have : (hydrate_match x.2).source = (hydrate_match y.2).source := hxy
    exact congrArg TypgFontSource.path this
  exact List.inj_on_of_nodup_map hpaths hx hy hpx

theorem search_ok_elim {w : World} {roots : List Nat} {q : Query}
    {opts : SearchOptions} {l : List TypgFontFaceMatch}
    (h : search w roots q opts = .ok l) :
    ∃ cands ms, discover w roots = .ok cands ∧
      mapExcept (load_metadata w) cands = .ok ms ∧
      l = sort_matches (ms.flatten.filter (fun face => q.matches face.metadata)) := by
  unfold search at h
  cases hd : discover w roots with
  | error e => rw [hd] at h; exact absurd h (by simp)
  | ok cands =>
      rw [hd] at h
      dsimp only at h
      cases hm : mapExcept (load_metadata w) cands with
      | error e => rw [hm] at h; exact absurd h (by simp)
      | ok ms =>
          rw [hm] at h
          exact ⟨cands, ms, rfl, hm, (Except.ok.inj h).symm⟩

/-- Witness for C6: dropping a required axis tag keeps the face matching. -/
theorem C6_witness :
    Query.matches { axes := [⟨0x77, 0x67, 0x68, 0x74⟩] }
      { axis_tags := [⟨0x77, 0x67, 0x68, 0x74⟩] } = true ∧
    Query.matches {} { axis_tags := [⟨0x77, 0x67, 0x68, 0x74⟩] } = true :=
  ⟨by decide,
    C6_monotonicity.1 {} { axis_tags := [⟨0x77, 0x67, 0x68, 0x74⟩] }
      ⟨0x77, 0x67, 0x68, 0x74⟩ (by decide)⟩

/-- C2 counterexample: with the same root given twice, the live search
returns the same face twice — two result entries sharing `(path,
ttc_index)` — because discovery does not deduplicate and the final sort
only orders. -/
theorem C2_counterexample :
    search sampleWorld [0, 0] {} {} =
      .ok [⟨⟨5, none⟩, { names := [[0x41]] }⟩, ⟨⟨5, none⟩, { names := [[0x41]] }⟩] ∧
    ¬ (([⟨⟨5, none⟩, { names := [[0x41]] }⟩, ⟨⟨5, none⟩, { names := [[0x41]] }⟩] :
        List TypgFontFaceMatch).map (fun m => m.source)).Nodup := by
  constructor
  · decide
  · decide

/-- C2 amended: every result list of the live search, `filter_cached`,
indexed `find` and `list_all` is sorted by `(path, ttc_index)`; the
no-duplicate guarantee holds for the live search only when discovery yields
each file at most once (repeated or overlapping roots can duplicate
entries) and faces within one file carry distinct ttc indices, and for the
indexed reads when the store holds distinct paths and well-formed (strictly
sorted) bitmaps. -/
theorem C2_sorted_nodup :
    (∀ (w : World) (roots : List Nat) (q : Query) (opts : SearchOptions)
      (l : List TypgFontFaceMatch), search w roots q opts = .ok l →
      l.Pairwise (fun a b => matchLe a b = true)) ∧
    (∀ (entries : List TypgFontFaceMatch) (q : Query),
      (filter_cached entries q).Pairwise (fun a b => matchLe a b = true)) ∧
    (∀ (s : IndexState) (q : Query),
      (find s q).Pairwise (fun a b => matchLe a b = true)) ∧
    (∀ (s : IndexState),
      (list_all s).Pairwise (fun a b => matchLe a b = true)) ∧
    (∀ (w : World) (roots : List Nat) (q : Query) (opts : SearchOptions)
      (cands : List Nat) (l : List TypgFontFaceMatch),
      discover w roots = .ok cands → cands.Nodup →
      (∀ p fs, w.faces p = some fs → (fs.map Prod.fst).Nodup) →
      search w roots q opts = .ok l →
      (l.map (fun m => m.source)).Nodup) ∧
    (∀ (s : IndexState) (q : Query),
      (s.db_metadata.map (fun kv => kv.2.path)).Nodup →
      (∀ u bm, dbGet s.db_inverted u = some bm → bm.Pairwise (· < ·)) →
      ((find s q).map (fun m => m.source)).Nodup) ∧
    (∀ (s : IndexState),
      (s.db_metadata.map (fun kv => kv.2.path)).Nodup →
      ((list_all s).map (fun m => m.source)).Nodup) := by
  refine ⟨?_, ?_, ?_, ?_, ?_, ?_, ?_⟩
  · intro w roots q opts l h
    obtain ⟨cands, ms, hd, hm, hl⟩ := search_ok_elim h
    rw [hl]
    exact sort_matches_sorted _
  · intro entries q
    exact sort_matches_sorted _
  · intro s q
    exact sort_matches_sorted _
  · intro s
    exact sort_matches_sorted _
  · intro w roots q opts cands l hd hnd hfaces h
    obtain ⟨cands', ms, hd', hm, hl⟩ := search_ok_elim h
    have hce : cands' = cands := Except.ok.inj (hd' ▸ hd)
    subst hce
    have hflat := sources_flatten_nodup w hfaces (mapExcept_forall2 hm) hnd
    have hfilter :
        ((ms.flatten.filter (fun face => q.matches face.metadata)).map
          (fun m => m.source)).Nodup :=
      List.Nodup.sublist ((List.filter_sublist _).map _) hflat
    rw [hl]
    unfold sort_matches
    exact ((sortByLe_perm matchLe _).map (fun m => m.source)).nodup_iff.mpr hfilter
  · intro s q hpaths hbm
    exact find_sources_nodup s q hpaths hbm
  · intro s hpaths
    exact list_all_sources_nodup s hpaths

/-- Witness for C2 on the sample world with a single root. -/
theorem C2_witness :
    (([⟨⟨5, none⟩, { names := [[0x41]] }⟩] : List TypgFontFaceMatch)).Pairwise
      (fun a b => matchLe a b = true) ∧
    ((([⟨⟨5, none⟩, { names := [[0x41]] }⟩] : List TypgFontFaceMatch)).map
      (fun m => m.source)).Nodup :=
  ⟨C2_sorted_nodup.1 sampleWorld [0] {} {} _ (by decide),
   C2_sorted_nodup.2.2.2.2.1 sampleWorld [0] {} {} [5] _ (by decide) (by decide)
     (by
       intro p fs h
       by_cases hp : p = 5
       · subst hp
         simp only [sampleWorld, if_pos rfl] at h
         rw [← Option.some.inj h]
         decide
       · simp [sampleWorld, hp] at h)
     (by decide)⟩

/-! ## Characterization of the two-phase indexed query (C1) -/

/-- The extraction-time metadata record that `add_font`'s arguments came
from — what the live matcher would be evaluated against. -/
def liveMetaOf (a : AddArgs) : TypgFontFaceMeta :=
  ⟨a.names, a.axis_tags, a.feature_tags, a.script_tags, a.table_tags,
   a.codepoints, a.is_variable, a.weight_class, a.width_class, a.family_class⟩

/-- The stored metadata row `add_font` writes for its arguments. -/
def metaOf (a : AddArgs) : IndexedFontMeta :=
  ⟨a.path, a.ttc_index, a.names, a.is_variable, a.weight_class, a.width_class,
   a.family_class, build_cmap_bitmap a.codepoints⟩

/-- The inverted-index keys a face gets registered under: the `u32` codes of
all four tag kinds pooled together, plus the `_VAR` marker if variable. -/
def keysOf (a : AddArgs) : List Nat :=
  (a.axis_tags ++ a.feature_tags ++ a.script_tags ++ a.table_tags).map tag_to_u32
    ++ (if a.is_variable then [tagMarkerVAR] else [])

/-- The per-face predicate the two-phase indexed query decides, spelled on
the add-time attributes: every query tag (of any kind) must be among the
face's pooled keys, the variable flag checks the `_VAR` key, the residual
name/weight/width/family clauses are the matcher's, and the codepoint
clause is vacuous when the face's codepoint set is empty. -/
def indexedAccepts (q : Query) (a : AddArgs) : Bool :=
  (q.axes ++ q.features ++ q.scripts ++ q.tables).all
      (fun t => (keysOf a).contains (tag_to_u32 t))
  && (!q.variable_only || (keysOf a).contains tagMarkerVAR)
  && nameClause q.name_patterns a.names
  && rangeClause q.weight_range a.weight_class
  && rangeClause q.width_range a.width_class
  && familyClause q.family_class a.family_class
  && (q.codepoints.isEmpty || a.codepoints.isEmpty ||
      q.codepoints.all (fun cp => a.codepoints.contains cp))

/-- Pair each face with the FontID `add_font` allocates for it. -/
def withIds (start : Nat) : List AddArgs → List (Nat × AddArgs)
  | [] => []
  | a :: rest => (start, a) :: withIds (start + 1) rest

theorem withIds_append (start : Nat) (l : List AddArgs) (a : AddArgs) :
    withIds start (l ++ [a]) = withIds start l ++ [(start + l.length, a)] := by
  induction l generalizing start with
  | nil => simp [withIds]
  | cons b rest ih =>
      rw [List.cons_append, withIds, ih (start + 1), withIds]
      simp only [List.length_cons, List.cons_append]
      have h : start + 1 + rest.length = start + (rest.length + 1) := by omega
      rw [h]

theorem withIds_fst (start : Nat) (l : List AddArgs) :
    (withIds start l).map Prod.fst = List.range' start l.length := by
  induction l generalizing start with
  | nil => simp [withIds]
  | cons b rest ih => simp [withIds, ih, List.range']

theorem withIds_snd (start : Nat) (l : List AddArgs) :
    (withIds start l).map Prod.snd = l := by
  induction l generalizing start with
  | nil => simp [withIds]
  | cons b rest ih => simp [withIds, ih]

theorem withIds_id_bounds (start : Nat) (l : List AddArgs) :
    ∀ ia ∈ withIds start l, start ≤ ia.1 ∧ ia.1 < start + l.length := by
  induction l generalizing start with
  | nil => intro ia h; simp [withIds] at h
  | cons b rest ih =>
      intro ia h
      rcases List.mem_cons.mp h with h | h
      · subst h; simp
      · have := ih (start + 1) ia h
        simp only [List.length_cons]
        omega

theorem withIds_id_inj (start : Nat) (l : List AddArgs) :
    ∀ ia ∈ withIds start l, ∀ ib ∈ withIds start l, ia.1 = ib.1 → ia = ib := by
  intro ia ha ib hb hid
  have hnd : ((withIds start l).map Prod.fst).Nodup := by
    rw [withIds_fst]
    exact List.nodup_range' start l.length
  exact List.inj_on_of_nodup_map hnd ha hb hid

theorem mem_withIds_of_mem (start : Nat) (l : List AddArgs) (a : AddArgs)
    (h : a ∈ l) : ∃ ia ∈ withIds start l, ia.2 = a := by
  induction l generalizing start with
  | nil => simp at h
  | cons b rest ih =>
      rcases List.mem_cons.mp h with h | h
      · exact ⟨(start, b), List.mem_cons_self _ _, h.symm⟩
      · obtain ⟨ia, hmem, heq⟩ := ih (start + 1) h
        exact ⟨ia, List.mem_cons_of_mem _ hmem, heq⟩

theorem dbGet_eq_none_iff {l : List (Nat × β)} {k : Nat} :
    dbGet l k = none ↔ k ∉ l.map Prod.fst := by
  induction l with
  | nil => simp [dbGet]
  | cons kv rest ih =>
      obtain ⟨k0, v0⟩ := kv
      by_cases h0 : k0 = k
      · subst h0
        simp [dbGet]
      · rw [dbGet, if_neg h0, List.map_cons, ih]
        simp only [List.mem_cons]
        constructor
        · intro h hc
          rcases hc with hc | hc
          · exact h0 hc.symm
          · exact h hc
        · intro h hc
          exact h (Or.inr hc)

theorem dbPut_append_of_fresh {l : List (Nat × β)} {k : Nat} (v : β)
    (h : k ∉ l.map Prod.fst) : dbPut l k v = l ++ [(k, v)] := by
  induction l with
  | nil => simp [dbPut]
  | cons kv rest ih =>
      obtain ⟨k0, v0⟩ := kv
      simp only [List.map_cons, List.mem_cons] at h
      push_neg at h
      rw [dbPut, if_neg (fun hc => h.1 hc.symm)]
      rw [ih h.2]
      simp

theorem dbGet_eq_some_iff_mem {l : List (Nat × β)} {k : Nat} {v : β}
    (hk : (l.map Prod.fst).Nodup) : dbGet l k = some v ↔ (k, v) ∈ l := by
  constructor
  · exact dbGet_mem
  · intro hmem
    induction l with
    | nil => simp at hmem
    | cons kv rest ih =>
        obtain ⟨k0, v0⟩ := kv
        rcases List.mem_cons.mp hmem with h | h
        · rw [← h]
          simp [dbGet]
        · have hk' := List.nodup_cons.mp hk
          have hne : k0 ≠ k := by
            intro hc
            subst hc
            exact hk'.1 (by
              have : (k0, v).1 ∈ rest.map Prod.fst := List.mem_map_of_mem Prod.fst h
              simpa using this)
          rw [dbGet, if_neg hne]
          exact ih hk'.2 h

theorem mem_foldl_bitmapInsert (cps : List Nat) :
    ∀ (acc : List Nat) (x : Nat),
      x ∈ cps.foldl (fun bm cp => bitmapInsert cp bm) acc ↔ x ∈ acc ∨ x ∈ cps := by
  induction cps with
  | nil => intro acc x; simp
  | cons cp rest ih =>
      intro acc x
      rw [List.foldl_cons, ih, mem_bitmapInsert]
      simp only [List.mem_cons]
      tauto

theorem mem_build_cmap_bitmap (cps : List Nat) (x : Nat) :
    x ∈ build_cmap_bitmap cps ↔ x ∈ cps := by
  unfold build_cmap_bitmap
  by_cases h : cps.isEmpty
  · rw [if_pos h]
    rw [List.isEmpty_iff] at h
    simp [h]
  · rw [if_neg h]
    rw [mem_foldl_bitmapInsert]
    simp

theorem build_cmap_bitmap_nil_iff (cps : List Nat) :
    build_cmap_bitmap cps = [] ↔ cps = [] := by
  unfold build_cmap_bitmap
  by_cases h : cps.isEmpty
  · rw [List.isEmpty_iff] at h
    simp [h]
  · rw [if_neg h]
    rw [List.isEmpty_iff] at h -- not equal nil
    constructor
    · intro hc
      exfalso
      cases cps with
      | nil => exact h rfl
      | cons c r =>
          have : c ∈ ([] : List Nat) := by
            rw [← hc, mem_foldl_bitmapInsert]
            exact Or.inr (List.mem_cons_self _ _)
          simp at this
    · intro hc
      exact absurd hc h

theorem mem_addInv (st : IndexState) (u0 fid u id : Nat) :
    id ∈ get_tag_bitmap (add_to_inverted_index st u0 fid) u ↔
      id ∈ get_tag_bitmap st u ∨ (u = u0 ∧ id = fid % U32LIMIT) := by
  unfold add_to_inverted_index get_tag_bitmap
  dsimp only
  rw [dbGet_dbPut]
  by_cases h : u0 = u
  · subst h
    rw [if_pos rfl]
    simp only [Option.getD_some]
    rw [mem_bitmapInsert]
    cases hg : dbGet st.db_inverted u0 <;> simp <;> tauto
  · rw [if_neg h]
    have hne : ¬ u = u0 := fun hc => h hc.symm
    simp [hne]

theorem tagInsFold_mem (fid : Nat) (ts : List Tag) (st : IndexState) (u id : Nat) :
    id ∈ get_tag_bitmap
        (ts.foldl (fun s t => add_to_inverted_index s (tag_to_u32 t) fid) st) u ↔
      id ∈ get_tag_bitmap st u ∨ (u ∈ ts.map tag_to_u32 ∧ id = fid % U32LIMIT) := by
  induction ts generalizing st with
  | nil => simp
  | cons t ts ih =>
      rw [List.foldl_cons, ih, mem_addInv]
      simp only [List.map_cons, List.mem_cons]
      tauto

theorem add_font_core_inverted_mem (s : IndexState) (a : AddArgs) (u id : Nat) :
    id ∈ get_tag_bitmap (add_font_core s a).1 u ↔
      id ∈ get_tag_bitmap s u ∨ (u ∈ keysOf a ∧ id = s.next_id % U32LIMIT) := by
  unfold add_font_core
  dsimp only
  generalize hsp : (match dbGet s.db_path_to_id (hash_path a.path) with
      | some entry => remove_font_by_id s entry.font_id
      | none => s) = sPre
  have hinv : sPre.db_inverted = s.db_inverted := by
    rw [← hsp]
    cases dbGet s.db_path_to_id (hash_path a.path) <;> rfl
  have hnext : sPre.next_id = s.next_id := by
    rw [← hsp]
    cases dbGet s.db_path_to_id (hash_path a.path) <;> rfl
  by_cases hvar : a.is_variable
  · rw [if_pos hvar, mem_addInv, tagInsFold_mem]
    simp only [get_tag_bitmap]
    rw [hinv, hnext]
    unfold keysOf
    rw [if_pos hvar]
    simp only [List.mem_append, List.mem_singleton]
    tauto
  · rw [if_neg hvar, tagInsFold_mem]
    simp only [get_tag_bitmap]
    rw [hinv, hnext]
    unfold keysOf
    rw [if_neg hvar]
    simp only [List.append_nil, List.mem_append]
    try tauto

theorem family_block_eq (filter : Option FamilyClassFilter)
    (fc : Option (Nat × Nat)) :
    (match filter with
     | some f =>
         match fc with
         | some (major, sub) => matches_family_class major sub f
         | none => false
     | none => true) = familyClause filter fc := by
  cases filter with
  | none => cases fc <;> rfl
  | some f =>
      cases fc with
      | none => rfl
      | some p =>
          obtain ⟨cls, sub⟩ := p
          rfl

theorem cmap_block_iff (qcps acps : List Nat) :
    ((if (!qcps.isEmpty) = true ∧ (!(build_cmap_bitmap acps).isEmpty) = true then
        qcps.all (fun cp => (build_cmap_bitmap acps).contains cp)
      else true) = true) ↔
    ((qcps.isEmpty || acps.isEmpty ||
      qcps.all (fun cp => acps.contains cp)) = true) := by
  by_cases hq : qcps.isEmpty = true
  · rw [if_neg (by simp [hq])]
    simp [hq]
  · have hqf : qcps.isEmpty = false := by
      cases h : qcps.isEmpty
      · rfl
      · exact absurd h hq
    by_cases ha : acps.isEmpty = true
    · have hb : (build_cmap_bitmap acps).isEmpty = true := by
        rw [List.isEmpty_iff]
        exact (build_cmap_bitmap_nil_iff acps).mpr (List.isEmpty_iff.mp ha)
      rw [if_neg (by simp [hb])]
      simp [ha]
    · have haf : acps.isEmpty = false := by
        cases h : acps.isEmpty
        · rfl
        · exact absurd h ha
      have hbf : (build_cmap_bitmap acps).isEmpty = false := by
        cases hv : (build_cmap_bitmap acps).isEmpty
        · rfl
        · exfalso
          apply ha
          rw [List.isEmpty_iff] at hv ⊢
          exact (build_cmap_bitmap_nil_iff acps).mp hv
      rw [if_pos ⟨by rw [hqf]; rfl, by rw [hbf]; rfl⟩]
      rw [hqf, haf]
      simp only [Bool.false_or]
      rw [List.all_eq_true, List.all_eq_true]
      constructor <;> intro h cp hcp <;> have hc := h cp hcp <;>
        simp only [List.contains, List.elem_iff] at hc ⊢
      · exact (mem_build_cmap_bitmap acps cp).mp hc
      · exact (mem_build_cmap_bitmap acps cp).mpr hc

/-- `passes_filters` on the stored row, re-expressed on the add-time
attributes. -/
theorem passes_filters_metaOf (a : AddArgs) (q : Query) :
    passes_filters (metaOf a) q = true ↔
      (nameClause q.name_patterns a.names = true ∧
       rangeClause q.weight_range a.weight_class = true ∧
       rangeClause q.width_range a.width_class = true ∧
       familyClause q.family_class a.family_class = true ∧
       (q.codepoints.isEmpty || a.codepoints.isEmpty ||
        q.codepoints.all (fun cp => a.codepoints.contains cp)) = true) := by
  unfold passes_filters metaOf
  dsimp only
  rw [family_block_eq]
  simp only [Bool.and_eq_true, and_assoc]
  constructor
  · rintro ⟨h1, h2, h3, h4, h5⟩
    exact ⟨h1, h2, h3, h4, (cmap_block_iff _ _).mp h5⟩
  · rintro ⟨h1, h2, h3, h4, h5⟩
    exact ⟨h1, h2, h3, h4, (cmap_block_iff _ _).mpr h5⟩

/-- The writer-state invariant after ingesting the faces `ps` (in order,
with pairwise distinct paths) into a fresh index. -/
def BuildInv (ps : List AddArgs) (s : IndexState) : Prop :=
  s.next_id = ps.length + 1 ∧
  s.db_metadata = (withIds 1 ps).map (fun ia => (ia.1, metaOf ia.2)) ∧
  s.db_path_to_id = (withIds 1 ps).map
    (fun ia => (hash_path ia.2.path, (⟨ia.1, ia.2.mtime⟩ : PathEntry))) ∧
  ∀ u id, id ∈ get_tag_bitmap s u ↔
    ∃ ia ∈ withIds 1 ps, id = ia.1 % U32LIMIT ∧ u ∈ keysOf ia.2

theorem add_font_core_fields (s : IndexState) (a : AddArgs)
    (hg : dbGet s.db_path_to_id (hash_path a.path) = none) :
    (add_font_core s a).1.db_metadata = dbPut s.db_metadata s.next_id (metaOf a) ∧
    (add_font_core s a).1.db_path_to_id =
      dbPut s.db_path_to_id (hash_path a.path) ⟨s.next_id, a.mtime⟩ ∧
    (add_font_core s a).1.next_id = s.next_id + 1 ∧
    (add_font_core s a).2 = s.next_id := by
  unfold add_font_core
  dsimp only
  rw [hg]
  by_cases hvar : a.is_variable <;>
    refine ⟨?_, ?_, ?_, rfl⟩ <;>
    simp [hvar, foldlInv_meta, foldlInv_path, foldlInv_next,
      add_to_inverted_index_meta, add_to_inverted_index_path,
      add_to_inverted_index_next, metaOf]

theorem buildInv_step (ps : List AddArgs) (s : IndexState) (a : AddArgs)
    (hInv : BuildInv ps s)
    (hfresh : a.path ∉ ps.map (fun b => b.path)) :
    BuildInv (ps ++ [a]) (add_font_core s a).1 := by
  obtain ⟨hnext, hmd, hpid, hbm⟩ := hInv
  have hpidkeys : s.db_path_to_id.map Prod.fst =
      ps.map (fun b => hash_path b.path) := by
    rw [hpid, List.map_map]
    have he : (Prod.fst ∘ fun ia : Nat × AddArgs =>
        (hash_path ia.2.path, (⟨ia.1, ia.2.mtime⟩ : PathEntry)))
        = (fun b : AddArgs => hash_path b.path) ∘ Prod.snd := rfl
    rw [he, ← List.map_map, withIds_snd]
  have hmdkeys : s.db_metadata.map Prod.fst = List.range' 1 ps.length := by
    rw [hmd, List.map_map]
    have he : (Prod.fst ∘ fun ia : Nat × AddArgs => (ia.1, metaOf ia.2))
        = Prod.fst := rfl
    rw [he, withIds_fst]
  have hg : dbGet s.db_path_to_id (hash_path a.path) = none := by
    rw [dbGet_eq_none_iff, hpidkeys]
    intro hc
    obtain ⟨b, hb, he⟩ := List.mem_map.mp hc
    have hbp : b.path = a.path := he
    exact hfresh (hbp ▸ List.mem_map_of_mem (fun b => b.path) hb)
  obtain ⟨hfmd, hfpid, hfnext, _⟩ := add_font_core_fields s a hg
  have hfreshmd : s.next_id ∉ s.db_metadata.map Prod.fst := by
    rw [hmdkeys, hnext]
    intro hc
    rw [List.mem_range'] at hc
    omega
  have hfreshpid : hash_path a.path ∉ s.db_path_to_id.map Prod.fst := by
    rw [dbGet_eq_none_iff] at hg
    exact hg
  refine ⟨?_, ?_, ?_, ?_⟩
  · rw [hfnext, hnext]
    simp
  · rw [hfmd, dbPut_append_of_fresh _ hfreshmd, hmd, withIds_append]
    rw [List.map_append]
    simp only [List.map_cons, List.map_nil]
    rw [hnext]
    have : 1 + ps.length = ps.length + 1 := by omega
    rw [this]
  · rw [hfpid, dbPut_append_of_fresh _ hfreshpid, hpid, withIds_append]
    rw [List.map_append]
    simp only [List.map_cons, List.map_nil]
    rw [hnext]
    have : 1 + ps.length = ps.length + 1 := by omega
    rw [this]
  · intro u id
    rw [add_font_core_inverted_mem, hbm u id, withIds_append]
    constructor
    · rintro (⟨ia, hmem, hrest⟩ | ⟨hk, hid⟩)
      · exact ⟨ia, List.mem_append_left _ hmem, hrest⟩
      · refine ⟨(1 + ps.length, a), List.mem_append_right _ (by simp), ?_, ?_⟩
        · rw [hid, hnext]
          have : 1 + ps.length = ps.length + 1 := by omega
          rw [this]
        · exact hk
    · rintro ⟨ia, hmem, hid, hk⟩
      rcases List.mem_append.mp hmem with hmem | hmem
      · exact Or.inl ⟨ia, hmem, hid, hk⟩
      · right
        have hia : ia = (1 + ps.length, a) := by simpa using hmem
        subst hia
        refine ⟨hk, ?_⟩
        rw [hid, hnext]
        have : 1 + ps.length = ps.length + 1 := by omega
        rw [this]

theorem buildInv_nil : BuildInv [] emptyIndex := by
  refine ⟨rfl, rfl, rfl, ?_⟩
  intro u id
  simp [withIds, get_tag_bitmap, emptyIndex, dbGet]

theorem buildInv_fold :
    ∀ (rest ps : List AddArgs) (s : IndexState),
    BuildInv ps s → ((ps ++ rest).map (fun b => b.path)).Nodup →
    BuildInv (ps ++ rest) (rest.foldl (fun st a => (add_font_core st a).1) s) := by
  intro rest
  induction rest with
  | nil =>
      intro ps s h hnd
      simpa using h
  | cons a rest' ih =>
      intro ps s h hnd
      have hfresh : a.path ∉ ps.map (fun b => b.path) := by
        intro hc
        rw [List.map_append, List.nodup_append] at hnd
        exact hnd.2.2 hc (by simp)
      have hstep := buildInv_step ps s a h hfresh
      have hnd' : (((ps ++ [a]) ++ rest').map (fun b => b.path)).Nodup := by
        rw [List.append_assoc]
        simpa using hnd
      have := ih (ps ++ [a]) _ hstep hnd'
      rw [List.append_assoc] at this
      simpa using this

theorem buildInv_all (faces : List AddArgs)
    (hnd : (faces.map (fun b => b.path)).Nodup) :
    BuildInv faces (buildIndex faces) := by
  have := buildInv_fold faces [] emptyIndex buildInv_nil (by simpa using hnd)
  simpa [buildIndex] using this

theorem tagFold_some (s : IndexState) (ts : List Tag) :
    ∀ (bm : List Nat), ∃ bm',
      ts.foldl (fun acc t =>
        some (intersect_optional acc (get_tag_bitmap s (tag_to_u32 t)))) (some bm)
        = some bm' := by
  induction ts with
  | nil => intro bm; exact ⟨bm, rfl⟩
  | cons t ts ih =>
      intro bm
      rw [List.foldl_cons]
      exact ih _

theorem tagFold_eq_none (s : IndexState) (ts : List Tag)
    (acc : Option (List Nat))
    (h : ts.foldl (fun acc t =>
        some (intersect_optional acc (get_tag_bitmap s (tag_to_u32 t)))) acc
      = none) : acc = none ∧ ts = [] := by
  cases ts with
  | nil => exact ⟨h, rfl⟩
  | cons t ts =>
      rw [List.foldl_cons] at h
      obtain ⟨bm', hbm'⟩ := tagFold_some s ts
        (intersect_optional acc (get_tag_bitmap s (tag_to_u32 t)))
      rw [hbm'] at h
      exact absurd h (by simp)

theorem tagFold_mem (s : IndexState) (ts : List Tag) :
    ∀ (acc : Option (List Nat)) (bm' : List Nat),
    ts.foldl (fun acc t =>
        some (intersect_optional acc (get_tag_bitmap s (tag_to_u32 t)))) acc
      = some bm' →
    ∀ id, id ∈ bm' ↔
      ((∀ bm, acc = some bm → id ∈ bm) ∧
       ∀ t ∈ ts, id ∈ get_tag_bitmap s (tag_to_u32 t)) := by
  induction ts with
  | nil =>
      intro acc bm' h id
      rw [List.foldl_nil] at h
      constructor
      · intro hmem
        refine ⟨?_, by intro t ht; simp at ht⟩
        intro bm hbm
        rw [h] at hbm
        rw [← Option.some.inj hbm]
        exact hmem
      · rintro ⟨hacc, -⟩
        exact hacc bm' h
  | cons t ts ih =>
      intro acc bm' h id
      rw [List.foldl_cons] at h
      rw [ih _ bm' h id]
      constructor
      · rintro ⟨hacc, hts⟩
        have hint : id ∈ intersect_optional acc (get_tag_bitmap s (tag_to_u32 t)) :=
          hacc _ rfl
        constructor
        · intro bm hbm
          rw [hbm] at hint
          exact ((mem_bitmapIntersect _ _ _).mp hint).1
        · intro t' ht'
          rcases List.mem_cons.mp ht' with ht' | ht'
          · subst ht'
            cases hc : acc with
            | none => rw [hc] at hint; exact hint
            | some bm0 =>
                rw [hc] at hint
                exact ((mem_bitmapIntersect _ _ _).mp hint).2
          · exact hts t' ht'
      · rintro ⟨hacc, hts⟩
        refine ⟨?_, fun t' ht' => hts t' (List.mem_cons_of_mem _ ht')⟩
        intro bm hbm
        rw [← Option.some.inj hbm]
        cases hc : acc with
        | none => exact hts t (List.mem_cons_self _ _)
        | some bm0 =>
            exact (mem_bitmapIntersect _ _ _).mpr
              ⟨hacc bm0 hc, hts t (List.mem_cons_self _ _)⟩

theorem mem_allIdsFold (rows : List (Nat × IndexedFontMeta)) :
    ∀ (acc : List Nat) (id : Nat),
    id ∈ rows.foldl (fun all kv => bitmapInsert (kv.1 % U32LIMIT) all) acc ↔
      id ∈ acc ∨ ∃ kv ∈ rows, id = kv.1 % U32LIMIT := by
  induction rows with
  | nil => intro acc id; simp
  | cons kv rest ih =>
      intro acc id
      rw [List.foldl_cons, ih, mem_bitmapInsert]
      simp only [List.mem_cons]
      constructor
      · rintro ((h | h) | ⟨kv', hkv', hid⟩)
        · exact Or.inr ⟨kv, Or.inl rfl, h⟩
        · exact Or.inl h
        · exact Or.inr ⟨kv', Or.inr hkv', hid⟩
      · rintro (h | ⟨kv', hkv' | hkv', hid⟩)
        · exact Or.inl (Or.inr h)
        · subst hkv'
          exact Or.inl (Or.inl hid)
        · exact Or.inr ⟨kv', hkv', hid⟩

/-- Phase 1 on a built index: with fewer than 2^32 faces, an ID is in the
candidate bitmap exactly when it names a stored face carrying every query
tag key (all four kinds pooled) and, if required, the `_VAR` marker. -/
theorem mem_candidates_build (faces : List AddArgs) (s : IndexState)
    (hInv : BuildInv faces s) (hlen : faces.length < U32LIMIT)
    (q : Query) (id : Nat) :
    id ∈ get_candidate_bitmap s q ↔
      ∃ ia ∈ withIds 1 faces, id = ia.1 ∧
        (∀ t ∈ q.axes ++ q.features ++ q.scripts ++ q.tables,
            tag_to_u32 t ∈ keysOf ia.2) ∧
        (q.variable_only = true → tagMarkerVAR ∈ keysOf ia.2) := by
  obtain ⟨hnext, hmd, hpid, hbm⟩ := hInv
  have hmod : ∀ ia ∈ withIds 1 faces, ia.1 % U32LIMIT = ia.1 := by
    intro ia hia
    have hb := withIds_id_bounds 1 faces ia hia
    exact Nat.mod_eq_of_lt (by omega)
  have hbm' : ∀ u i, i ∈ get_tag_bitmap s u ↔
      ∃ ia ∈ withIds 1 faces, i = ia.1 ∧ u ∈ keysOf ia.2 := by
    intro u i
    rw [hbm u i]
    constructor
    · rintro ⟨ia, hmem, hid, hk⟩
      exact ⟨ia, hmem, by rw [hid, hmod ia hmem], hk⟩
    · rintro ⟨ia, hmem, hid, hk⟩
      refine ⟨ia, hmem, ?_, hk⟩
      rw [hid]
      exact (hmod ia hmem).symm
  unfold get_candidate_bitmap
  dsimp only
  rw [← List.foldl_append, ← List.foldl_append, ← List.foldl_append]
  have hqt : q.axes ++ (q.features ++ (q.scripts ++ q.tables))
      = q.axes ++ q.features ++ q.scripts ++ q.tables := by
    simp [List.append_assoc]
  rw [hqt]
  by_cases hvar : q.variable_only
  · rw [if_pos hvar]
    cases hR : (q.axes ++ q.features ++ q.scripts ++ q.tables).foldl
        (fun acc t =>
          some (intersect_optional acc (get_tag_bitmap s (tag_to_u32 t)))) none with
    | none =>
        obtain ⟨-, hempty⟩ := tagFold_eq_none s _ none hR
        dsimp only [intersect_optional]
        rw [hbm' tagMarkerVAR id]
        constructor
        · rintro ⟨ia, hmem, hid, hk⟩
          refine ⟨ia, hmem, hid, ?_, fun _ => hk⟩
          intro t ht
          rw [hempty] at ht
          simp at ht
        · rintro ⟨ia, hmem, hid, -, hk⟩
          exact ⟨ia, hmem, hid, hk hvar⟩
    | some bm =>
        dsimp only [intersect_optional]
        rw [mem_bitmapIntersect, tagFold_mem s _ none bm hR id,
          hbm' tagMarkerVAR id]
        constructor
        · rintro ⟨⟨-, hts⟩, ⟨ia, hmem, hid, hk⟩⟩
          refine ⟨ia, hmem, hid, ?_, fun _ => hk⟩
          intro t ht
          obtain ⟨ia', hmem', hid', hk'⟩ := (hbm' _ id).mp (hts t ht)
          have heq : ia' = ia :=
            withIds_id_inj 1 faces ia' hmem' ia hmem (by rw [← hid', ← hid])
          rw [← heq]
          exact hk'
        · rintro ⟨ia, hmem, hid, hts, hk⟩
          refine ⟨⟨?_, ?_⟩, ?_⟩
          · intro bm0 h0
            exact absurd h0 (by simp)
          · intro t ht
            exact (hbm' _ id).mpr ⟨ia, hmem, hid, hts t ht⟩
          · exact ⟨ia, hmem, hid, hk hvar⟩
  · rw [if_neg hvar]
    cases hR : (q.axes ++ q.features ++ q.scripts ++ q.tables).foldl
        (fun acc t =>
          some (intersect_optional acc (get_tag_bitmap s (tag_to_u32 t)))) none with
    | none =>
        obtain ⟨-, hempty⟩ := tagFold_eq_none s _ none hR
        rw [mem_allIdsFold s.db_metadata [] id]
        simp only [List.not_mem_nil, false_or]
        rw [hmd]
        constructor
        · rintro ⟨kv, hkv, hid⟩
          obtain ⟨ia, hiamem, hiaeq⟩ := List.mem_map.mp hkv
          have hfst : kv.1 = ia.1 := by rw [← hiaeq]
          refine ⟨ia, hiamem, ?_, ?_, ?_⟩
          · rw [hid, hfst, hmod ia hiamem]
          · intro t ht
            rw [hempty] at ht
            simp at ht
          · intro hc
            exact absurd hc hvar
        · rintro ⟨ia, hmem, hid, -, -⟩
          refine ⟨(ia.1, metaOf ia.2), List.mem_map_of_mem _ hmem, ?_⟩
          dsimp only
          rw [hid]
          exact (hmod ia hmem).symm
    | some bm =>
        have hne : (q.axes ++ q.features ++ q.scripts ++ q.tables) ≠ [] := by
          intro hc
          rw [hc] at hR
          exact absurd hR (by simp)
        obtain ⟨t0, ht0⟩ := List.exists_mem_of_ne_nil _ hne
        rw [tagFold_mem s _ none bm hR id]
        constructor
        · rintro ⟨-, hts⟩
          obtain ⟨ia, hmem, hid, hk0⟩ := (hbm' _ id).mp (hts t0 ht0)
          refine ⟨ia, hmem, hid, ?_, fun hc => absurd hc hvar⟩
          intro t ht
          obtain ⟨ia', hmem', hid', hk'⟩ := (hbm' _ id).mp (hts t ht)
          have heq : ia' = ia :=
            withIds_id_inj 1 faces ia' hmem' ia hmem (by rw [← hid', ← hid])
          rw [← heq]
          exact hk'
        · rintro ⟨ia, hmem, hid, hts, -⟩
          refine ⟨?_, ?_⟩
          · intro bm0 h0
            exact absurd h0 (by simp)
          · intro t ht
            exact (hbm' _ id).mpr ⟨ia, hmem, hid, hts t ht⟩

theorem indexedAccepts_iff (q : Query) (a : AddArgs) :
    indexedAccepts q a = true ↔
      ((∀ t ∈ q.axes ++ q.features ++ q.scripts ++ q.tables,
          tag_to_u32 t ∈ keysOf a) ∧
       (q.variable_only = true → tagMarkerVAR ∈ keysOf a) ∧
       passes_filters (metaOf a) q = true) := by
  unfold indexedAccepts
  simp only [Bool.and_eq_true, and_assoc, List.all_eq_true, Bool.or_eq_true,
    Bool.not_eq_true', List.contains, List.elem_iff]
  rw [passes_filters_metaOf]
  cases hvv : q.variable_only <;> simp

/-- C1 amended: over an index built by `add_font` from pairwise-distinct
paths, with fewer than 2^32 faces, `find(Q)` returns exactly the hydrated
projections of the stored faces accepted by the two-phase predicate
`indexedAccepts`: every query tag (of any of the four kinds) lies in the
face's pooled tag keys (kinds are not distinguished; the `_VAR` marker
counts as a key of variable faces), the variable flag requires the `_VAR`
key, the name / weight / width / family clauses are the live matcher's, and
the codepoint clause is vacuous for a face stored with no codepoints. -/
theorem C1_find_characterization (faces : List AddArgs)
    (hnd : (faces.map (fun a => a.path)).Nodup)
    (hlen : faces.length < U32LIMIT) (q : Query) (m : TypgFontFaceMatch) :
    m ∈ find (buildIndex faces) q ↔
      ∃ a ∈ faces, indexedAccepts q a = true ∧ m = hydrate_match (metaOf a) := by
  have hInv' := buildInv_all faces hnd
  obtain ⟨hnext, hmd, hpid, hbm⟩ := buildInv_all faces hnd
  have hmdkeys : ((buildIndex faces).db_metadata.map Prod.fst).Nodup := by
    rw [hmd, List.map_map]
    have he : (Prod.fst ∘ fun ia : Nat × AddArgs => (ia.1, metaOf ia.2))
        = Prod.fst := rfl
    rw [he, withIds_fst]
    exact List.nodup_range' 1 faces.length
  have hget : ∀ fid meta,
      dbGet (buildIndex faces).db_metadata fid = some meta ↔
        ∃ ia ∈ withIds 1 faces, fid = ia.1 ∧ meta = metaOf ia.2 := by
    intro fid meta
    rw [dbGet_eq_some_iff_mem hmdkeys, hmd]
    constructor
    · intro hmem
      obtain ⟨ia, hia, heq⟩ := List.mem_map.mp hmem
      have h1 : ia.1 = fid := congrArg Prod.fst heq
      have h2 : metaOf ia.2 = meta := congrArg Prod.snd heq
      exact ⟨ia, hia, h1.symm, h2.symm⟩
    · rintro ⟨ia, hia, h1, h2⟩
      rw [h1, h2]
      exact List.mem_map_of_mem _ hia
  unfold find
  dsimp only
  rw [sort_matches, mem_sortByLe, List.mem_filterMap]
  constructor
  · rintro ⟨fid, hfid, hf⟩
    cases hga : dbGet (buildIndex faces).db_metadata fid with
    | none => rw [hga] at hf; exact absurd hf (by simp)
    | some meta =>
        rw [hga] at hf
        dsimp only at hf
        cases hp : passes_filters meta q with
        | false => rw [hp] at hf; simp at hf
        | true =>
            rw [hp] at hf
            simp only [if_true] at hf
            have hm : m = hydrate_match meta := (Option.some.inj hf).symm
            obtain ⟨ia, hiamem, hfid_eq, hmeta_eq⟩ := (hget fid meta).mp hga
            obtain ⟨ia', hmem', hid', hts', hvar'⟩ :=
              (mem_candidates_build faces _ hInv' hlen q fid).mp hfid
            have heq : ia' = ia :=
              withIds_id_inj 1 faces ia' hmem' ia hiamem
                (by rw [← hid', ← hfid_eq])
            rw [heq] at hts' hvar'
            refine ⟨ia.2, ?_, ?_, ?_⟩
            · have := List.mem_map_of_mem Prod.snd hiamem
              rw [withIds_snd] at this
              exact this
            · rw [indexedAccepts_iff]
              refine ⟨hts', hvar', ?_⟩
              rw [← hmeta_eq]
              exact hp
            · rw [hm, hmeta_eq]
  · rintro ⟨a, ha, hacc, hm⟩
    obtain ⟨ia, hiamem, hia2⟩ := mem_withIds_of_mem 1 faces a ha
    rw [indexedAccepts_iff] at hacc
    obtain ⟨hts, hvarp, hpf⟩ := hacc
    refine ⟨ia.1, ?_, ?_⟩
    · refine (mem_candidates_build faces _ hInv' hlen q ia.1).mpr
        ⟨ia, hiamem, rfl, ?_, ?_⟩
      · intro t ht
        rw [hia2]
        exact hts t ht
      · intro hv
        rw [hia2]
        exact hvarp hv
    · have hget' : dbGet (buildIndex faces).db_metadata ia.1 = some (metaOf a) :=
        (hget ia.1 (metaOf a)).mpr ⟨ia, hiamem, rfl, by rw [hia2]⟩
      rw [hget']
      dsimp only
      rw [hpf]
      simp only [if_true]
      rw [hm]

/-- C1 counterexample: the inverted index pools all four tag kinds into one
keyspace, so a face stored with feature tag "smcp" (and no axes) is
returned by `find` for the query `axes = [smcp]`, although the live matcher
rejects that face's extraction-time metadata; the claimed "returned iff the
matcher accepts" equivalence fails. -/
theorem C1_counterexample :
    ((find (buildIndex [{ path := 1, feature_tags := [⟨0x73, 0x6D, 0x63, 0x70⟩] }])
        { axes := [⟨0x73, 0x6D, 0x63, 0x70⟩] }).map (fun m => m.source.path)
      = [1]) ∧
    Query.matches { axes := [⟨0x73, 0x6D, 0x63, 0x70⟩] }
      (liveMetaOf { path := 1, feature_tags := [⟨0x73, 0x6D, 0x63, 0x70⟩] })
      = false := by
  constructor
  · decide
  · decide

/-- Witness for C1 on a one-face index queried by the feature that the face
was stored with. -/
theorem C1_witness :
    (([({ path := 1, feature_tags := [⟨0x73, 0x6D, 0x63, 0x70⟩] } : AddArgs)].map
        (fun a => a.path)).Nodup) ∧
    ([({ path := 1, feature_tags := [⟨0x73, 0x6D, 0x63, 0x70⟩] } : AddArgs)].length
      < U32LIMIT) ∧
    (hydrate_match (metaOf { path := 1, feature_tags := [⟨0x73, 0x6D, 0x63, 0x70⟩] }) ∈
        find (buildIndex [{ path := 1, feature_tags := [⟨0x73, 0x6D, 0x63, 0x70⟩] }])
          { features := [⟨0x73, 0x6D, 0x63, 0x70⟩] } ↔
      ∃ a ∈ [({ path := 1, feature_tags := [⟨0x73, 0x6D, 0x63, 0x70⟩] } : AddArgs)],
        indexedAccepts { features := [⟨0x73, 0x6D, 0x63, 0x70⟩] } a = true ∧
          hydrate_match (metaOf { path := 1, feature_tags := [⟨0x73, 0x6D, 0x63, 0x70⟩] })
            = hydrate_match (metaOf a)) :=
  ⟨by decide, by decide,
    C1_find_characterization
      [{ path := 1, feature_tags := [⟨0x73, 0x6D, 0x63, 0x70⟩] }]
      (by decide) (by decide) { features := [⟨0x73, 0x6D, 0x63, 0x70⟩] }
      (hydrate_match (metaOf { path := 1, feature_tags := [⟨0x73, 0x6D, 0x63, 0x70⟩] }))⟩

end Typg

